import Mathlib

/-!
Verification development for the speak-strong core engine
(packages/core/src/tokenizer.ts and packages/core/src/rule-engine.ts,
plus the processText entry point of packages/core/src/index.ts).

Strings are modelled as lists of characters (`Str`).  JavaScript's
character classes (`\s`, `\w`) and `toLowerCase`/`toUpperCase` are
modelled over ASCII, which covers every rule pattern and test input of
the repository.  All regular-expression operations of the source are
embedded as executable recursive functions with the same observable
behaviour, so that concrete runs of the pipeline can be evaluated inside
proofs.
-/

namespace SpeakStrong

abbrev Str := List Char

/-- Convert a Lean string literal to the `Str` model. -/
def str (s : String) : Str := s.toList

/-- JavaScript `\s` (ASCII fragment): space, tab, newline, carriage
return, vertical tab, form feed. -/
def jsIsSpace (c : Char) : Bool :=
  decide (c = ' ') || decide (c = '\t') || decide (c = '\n') ||
  decide (c = '\r') || decide (c = '\x0b') || decide (c = '\x0c')

/-- JavaScript `\w`: ASCII letters, digits and underscore. -/
def jsIsWordChar (c : Char) : Bool :=
  c.isAlphanum || decide (c = '_')

/-- Character class `[\w']` used by the tokenizer's word branch. -/
def jsIsWordOrApos (c : Char) : Bool :=
  jsIsWordChar c || decide (c = '\'')

/-- Model of JavaScript `String.prototype.toLowerCase` (ASCII). -/
def lowerStr (s : Str) : Str := s.map Char.toLower

/-- Model of JavaScript `String.prototype.toUpperCase` (ASCII). -/
def upperStr (s : Str) : Str := s.map Char.toUpper

/-- Token classification of tokenizer.ts. -/
inductive TokenType where
  | word
  | punctuation
  | whitespace
  | contraction
deriving DecidableEq, Repr

/-- tokenizer.ts `Token` (the source's `end` field is called `stop`
here because `end` is a Lean keyword; the optional `pos` field is never
set by the repository and is omitted). -/
structure Token where
  text : Str
  type : TokenType
  start : Nat
  stop : Nat
  normalized : Str
deriving DecidableEq, Repr

/-- The closed contraction set of tokenizer.ts. -/
def CONTRACTIONS : List Str :=
  [ str "i'm", str "i'll", str "i've", str "i'd",
    str "you're", str "you'll", str "you've", str "you'd",
    str "he's", str "he'll", str "he'd",
    str "she's", str "she'll", str "she'd",
    str "it's", str "it'll", str "it'd",
    str "we're", str "we'll", str "we've", str "we'd",
    str "they're", str "they'll", str "they've", str "they'd",
    str "that's", str "that'll", str "that'd",
    str "who's", str "who'll", str "who'd",
    str "what's", str "what'll", str "what'd",
    str "where's", str "where'll", str "where'd",
    str "when's", str "when'll", str "when'd",
    str "why's", str "why'll", str "why'd",
    str "how's", str "how'll", str "how'd",
    str "isn't", str "aren't", str "wasn't", str "weren't",
    str "hasn't", str "haven't", str "hadn't",
    str "doesn't", str "don't", str "didn't",
    str "won't", str "wouldn't", str "shouldn't", str "couldn't",
    str "mightn't", str "mustn't", str "can't",
    str "let's", str "here's", str "there's" ]

/-- The tokenizer's trailing-apostrophe stripping loop, operating on the
reversed word (`while word.endsWith("'") && !CONTRACTIONS.has(word.toLowerCase())`):
each stripped apostrophe is pushed back onto the unconsumed input. -/
def stripAposRev : Str → Str → Str × Str
  | [], rest => ([], rest)
  | c :: wrev, rest =>
    if c = '\'' ∧ lowerStr (c :: wrev).reverse ∉ CONTRACTIONS then
      stripAposRev wrev ('\'' :: rest)
    else (c :: wrev, rest)

/-- Strip trailing apostrophes from a candidate word, returning the word
and the input the stripped characters are returned to. -/
def stripTrailingApostrophes (w : Str) (rest : Str) : Str × Str :=
  let p := stripAposRev w.reverse rest
  (p.1.reverse, p.2)

/-- Does the next character exist and match `\w`?  (`/\w/.test(text[pos + 1] || '')`). -/
def nextIsWord : Str → Bool
  | [] => false
  | d :: _ => jsIsWordChar d

/-- One pass of tokenizer.ts `tokenize`, with explicit fuel (one unit per
token; every token consumes at least one character, so `text.length`
fuel suffices).  `pos` is the absolute offset of the remaining input. -/
def tokenizeAux : Nat → Nat → Str → List Token
  | 0, _, _ => []
  | _ + 1, _, [] => []
  | fuel + 1, pos, c :: cs =>
    if jsIsSpace c then
      let run := (c :: cs).takeWhile jsIsSpace
      { text := run, type := .whitespace, start := pos, stop := pos + run.length,
        normalized := run } ::
        tokenizeAux fuel (pos + run.length) ((c :: cs).dropWhile jsIsSpace)
    else if (¬ jsIsWordChar c ∧ c ≠ '\'') ∨ (c = '\'' ∧ ¬ nextIsWord cs) then
      { text := [c], type := .punctuation, start := pos, stop := pos + 1,
        normalized := [c] } :: tokenizeAux fuel (pos + 1) cs
    else if jsIsWordOrApos c then
      let run := (c :: cs).takeWhile jsIsWordOrApos
      let stripped := stripTrailingApostrophes run ((c :: cs).dropWhile jsIsWordOrApos)
      let word := stripped.1
      let isContr := lowerStr word ∈ CONTRACTIONS
      { text := word, type := if isContr then .contraction else .word,
        start := pos, stop := pos + word.length, normalized := lowerStr word } ::
        tokenizeAux fuel (pos + word.length) stripped.2
    else
      { text := [c], type := .punctuation, start := pos, stop := pos + 1,
        normalized := [c] } :: tokenizeAux fuel (pos + 1) cs

/-- tokenizer.ts `tokenize` (the `preserveContractions` option is always
left at its default `true` by the repository and is omitted). -/
def tokenize (text : Str) : List Token :=
  tokenizeAux text.length 0 text

/-- tokenizer.ts `getWordTokens`. -/
def isWordTok (t : Token) : Bool :=
  decide (t.type = TokenType.word) || decide (t.type = TokenType.contraction)

def getWordTokens (tokens : List Token) : List Token :=
  tokens.filter isWordTok

/-- tokenizer.ts `tokensToText`. -/
def tokensToText : List Token → Str
  | [] => []
  | t :: ts => t.text ++ tokensToText ts

/-! ## rule-engine.ts: data model -/

inductive StrictnessLevel where
  | conservative
  | moderate
  | aggressive
deriving DecidableEq, Repr

/-- rule-engine.ts `TokenPattern`. -/
structure TokenPattern where
  text : Str
  optional : Bool := false
deriving DecidableEq, Repr

/-- rule-engine.ts `CaptureConfig`. -/
structure CaptureConfig where
  name : Str
  afterTokens : Option Nat := none
  stopAt : Option (List Str) := none
deriving DecidableEq, Repr

/-- rule-engine.ts `RestructureConfig`. -/
structure RestructureConfig where
  template : Str
  captures : Option (List CaptureConfig) := none
deriving DecidableEq, Repr

/-- rule-engine.ts `MatchContext`. -/
structure MatchContext where
  before : List Token
  matched : List Token
  after : List Token
  allTokens : List Token
  originalText : Str

/-- rule-engine.ts `TokenRule` (`replacement`: `none` is the source's
`null`, `some []` its empty array). -/
structure TokenRule where
  id : Str
  pattern : List TokenPattern
  replacement : Option (List Str)
  level : StrictnessLevel
  category : Str
  suggestion : Option Str := none
  constraint : Option (MatchContext → Bool) := none
  restructure : Option RestructureConfig := none

/-- rule-engine.ts `RuleMatch` (the source's `textEnd` may exceed the
recorded range's end after restructuring). -/
structure RuleMatch where
  rule : TokenRule
  tokenStart : Nat
  tokenEnd : Nat
  textStart : Nat
  textEnd : Nat
  matchedTokens : List Token
  replacementText : Option Str
  context : MatchContext

structure RuleEngineResult where
  original : Str
  transformed : Str
  matchList : List RuleMatch
  suggestions : List RuleMatch

/-! ## rule-engine.ts: helpers -/

/-- JavaScript `s.split(/\s+/).filter(Boolean)`: the maximal runs of
non-whitespace characters. -/
def splitOnWs (s : Str) : List Str :=
  (s.splitOnP jsIsSpace).filter (fun w => w ≠ [])

/-- The punctuation class `[.,!?;:]` stripped from patterns and removed
after whitespace by the cleanup pass. -/
def isCleanupPunct (c : Char) : Bool :=
  decide (c = '.') || decide (c = ',') || decide (c = '!') ||
  decide (c = '?') || decide (c = ';') || decide (c = ':')

/-- rule-engine.ts `normalizePatternText`. -/
def normalizePatternText (text : Str) : List TokenPattern :=
  (((splitOnWs (lowerStr text)).map
      (fun word => ({ text := word.filter (fun c => ¬ isCleanupPunct c) } : TokenPattern))).filter
    (fun t => t.text ≠ []))

/-- rule-engine.ts `RESTRUCTURE_CAPTURES`. -/
def RESTRUCTURE_CAPTURES (patternKey : Str) : Option (List CaptureConfig) :=
  if patternKey = str "would you mind if" then some [{ name := str "subject" }] else none

/-- rule-engine.ts `matchesPattern` (returns the source's
`{ matched, endIndex }` as a pair). -/
def matchesPattern (wordTokens : List Token) : Nat → List TokenPattern → Bool × Nat
  | tokenIdx, [] => (true, tokenIdx)
  | tokenIdx, p :: ps =>
    match wordTokens[tokenIdx]? with
    | none =>
      if p.optional then matchesPattern wordTokens tokenIdx ps else (false, tokenIdx)
    | some t =>
      if t.normalized = p.text then matchesPattern wordTokens (tokenIdx + 1) ps
      else if p.optional then matchesPattern wordTokens tokenIdx ps
      else (false, tokenIdx)

/-- The source's `isCapitalized` test: `firstWord[0] === firstWord[0].toUpperCase()
&& (length === 1 || firstWord.slice(1) === firstWord.slice(1).toLowerCase())`.
(On the empty string the JavaScript expression would fault; the engine
never calls it with one.) -/
def isCapitalizedWord : Str → Bool
  | [] => false
  | c :: rest =>
    decide (c = c.toUpper) && (decide (rest = []) || decide (rest = lowerStr rest))

/-- `replacement.charAt(0).toUpperCase() + replacement.slice(1).toLowerCase()`. -/
def capitalizeFirst : Str → Str
  | [] => []
  | c :: rest => c.toUpper :: lowerStr rest

/-- Join words with single spaces (`words.join(' ')`). -/
def joinSpace : List Str → Str
  | [] => []
  | [w] => w
  | w :: ws => w ++ ' ' :: joinSpace ws

/-- rule-engine.ts `preserveCase`. -/
def preserveCase (original replacement : Str) : Str :=
  if replacement = [] then replacement
  else
    let firstWord := (splitOnWs original).headD original
    if 1 < firstWord.length ∧ firstWord = upperStr firstWord ∧ firstWord ≠ lowerStr firstWord then
      upperStr replacement
    else if firstWord = lowerStr firstWord ∧ firstWord ≠ upperStr firstWord then
      lowerStr replacement
    else if isCapitalizedWord firstWord then
      capitalizeFirst replacement
    else replacement

/-- rule-engine.ts `buildReplacementText`. -/
def buildReplacementText (matchedTokens : List Token) (replacement : Option (List Str))
    (_allTokens : List Token) : Option Str :=
  match replacement with
  | none => none
  | some [] => some []
  | some rep =>
    match matchedTokens.find? isWordTok with
    | none => some (joinSpace rep)
    | some _ =>
      let matchedPhrase := joinSpace ((matchedTokens.filter isWordTok).map Token.text)
      some (preserveCase matchedPhrase (joinSpace rep))

/-- rule-engine.ts `SUBJECT_PRONOUNS`. -/
def SUBJECT_PRONOUNS : List Str :=
  [str "i", str "we", str "you", str "he", str "she", str "it", str "they"]

/-- rule-engine.ts `getTokensBetween`. -/
def getTokensBetween (allTokens : List Token) (start stop : Nat) : List Token :=
  match allTokens.findIdx? (fun t => decide (start ≤ t.start)) with
  | none => []
  | some startToken =>
    let actualEnd :=
      match allTokens.findIdx? (fun t => decide (stop ≤ t.stop)) with
      | none => allTokens.length
      | some endToken => endToken + 1
    (allTokens.drop startToken).take (actualEnd - startToken)

/-! ## rule-engine.ts: findMatches -/

/-- An entry of the source's `usedRanges` array. -/
structure UsedRange where
  start : Nat
  stop : Nat
deriving DecidableEq, Repr

/-- The source's overlap test against one recorded range. -/
def rangesOverlap (textStart textEnd : Nat) (range : UsedRange) : Bool :=
  (decide (range.start ≤ textStart) && decide (textStart < range.stop)) ||
  (decide (range.start < textEnd) && decide (textEnd ≤ range.stop)) ||
  (decide (textStart ≤ range.start) && decide (range.stop ≤ textEnd))

/-- One step of the restructure-capture loop of `findMatches`. -/
def extendCapture (allTokens : List Token) (textStart : Nat) (afterWordTokens : List Token)
    (acc : Nat × List Token) (capture : CaptureConfig) : Nat × List Token :=
  if capture.name = str "subject" ∧ afterWordTokens ≠ [] then
    match afterWordTokens.head? with
    | some firstAfter =>
      if firstAfter.normalized ∈ SUBJECT_PRONOUNS then
        (firstAfter.stop, getTokensBetween allTokens textStart firstAfter.stop)
      else acc
    | none => acc
  else acc

/-- The rule's constraint applied to the candidate context (`true` when
the rule has no constraint). -/
def constraintOkFor (rule : TokenRule) (context : MatchContext) : Bool :=
  match rule.constraint with
  | some c => c context
  | none => true

/-- The tail of the loop body once the first and last matched word
tokens are at hand: the constraint test, the restructure extension and
the construction of the match and of the recorded range (the source
records `{ start: textStart, end: textEnd }` with the pre-restructure
`textEnd`). -/
def attemptCore (text : Str) (allTokens : List Token) (rule : TokenRule)
    (i endIdx : Nat) (firstTok lastTok : Token) : Option (RuleMatch × UsedRange) :=
  let textStart := firstTok.start
  let textEnd := lastTok.stop
  let matchedTokens := getTokensBetween allTokens textStart textEnd
  let context : MatchContext :=
    { before := allTokens.filter (fun t => decide (t.stop ≤ textStart))
      matched := matchedTokens
      after := allTokens.filter (fun t => decide (textEnd ≤ t.start))
      allTokens := allTokens
      originalText := text }
  if ¬ constraintOkFor rule context then none
  else
    let extended :=
      match rule.restructure with
      | some rc =>
        match rc.captures with
        | some caps =>
          caps.foldl (extendCapture allTokens textStart (getWordTokens context.after))
            (textEnd, matchedTokens)
        | none => (textEnd, matchedTokens)
      | none => (textEnd, matchedTokens)
    let actualTextEnd := extended.1
    let actualMatchedTokens := extended.2
    let extendedContext : MatchContext :=
      { context with
        matched := actualMatchedTokens
        after := allTokens.filter (fun t => decide (actualTextEnd ≤ t.start)) }
    let replacementText := buildReplacementText actualMatchedTokens rule.replacement allTokens
    some ({ rule := rule, tokenStart := i, tokenEnd := endIdx,
            textStart := textStart, textEnd := actualTextEnd,
            matchedTokens := actualMatchedTokens,
            replacementText := replacementText,
            context := extendedContext },
          { start := textStart, stop := textEnd })

/-- The body of `findMatches`'s inner loop up to but excluding the
`usedRanges` overlap test: the candidate match and the range that would
be recorded for it.  `none` when the pattern does not match at `i`, the
matched token list is empty, or the rule's constraint rejects the
context. -/
def attemptRuleAt (text : Str) (allTokens wordTokens : List Token) (rule : TokenRule)
    (i : Nat) : Option (RuleMatch × UsedRange) :=
  let result := matchesPattern wordTokens i rule.pattern
  if ¬ result.1 then none
  else
    let matchedWordTokens := (wordTokens.drop i).take (result.2 - i)
    match matchedWordTokens.head?, matchedWordTokens.getLast? with
    | some firstTok, some lastTok =>
      attemptCore text allTokens rule i result.2 firstTok lastTok
    | _, _ => none

/-- The matcher's accumulating state (the source's `matches` array is
called `matchList`: `matches` is a Lean keyword). -/
structure FMState where
  matchList : List RuleMatch
  usedRanges : List UsedRange

/-- The inner loop body of `findMatches`: attempt the rule at `i` and
accept unless the candidate's pre-restructure range overlaps a recorded
range.  (The source tests overlap before evaluating the constraint; both
tests are pure, so performing the constraint test inside `attemptRuleAt`
yields the same state.) -/
def tryRuleAt (text : Str) (allTokens wordTokens : List Token) (rule : TokenRule)
    (i : Nat) (st : FMState) : FMState :=
  match attemptRuleAt text allTokens wordTokens rule i with
  | none => st
  | some (m, r) =>
    if st.usedRanges.any (rangesOverlap r.start r.stop) then st
    else { matchList := st.matchList ++ [m], usedRanges := st.usedRanges ++ [r] }

/-- `for (let i = 0; i < wordTokens.length; i++)`, over an explicit
position list. -/
def scanPositions (text : Str) (allTokens wordTokens : List Token) (rule : TokenRule) :
    List Nat → FMState → FMState
  | [], st => st
  | i :: rest, st =>
    scanPositions text allTokens wordTokens rule rest
      (tryRuleAt text allTokens wordTokens rule i st)

def scanRule (text : Str) (allTokens wordTokens : List Token) (st : FMState)
    (rule : TokenRule) : FMState :=
  scanPositions text allTokens wordTokens rule (List.range wordTokens.length) st

/-- `for (const rule of sortedRules)`. -/
def processRules (text : Str) (allTokens wordTokens : List Token) :
    List TokenRule → FMState → FMState
  | [], st => st
  | rule :: rules, st =>
    processRules text allTokens wordTokens rules (scanRule text allTokens wordTokens st rule)

/-- Stable insertion for the descending-by-pattern-length rule sort
(`[...rules].sort((a, b) => b.pattern.length - a.pattern.length)`;
JavaScript's sort is stable, and a stable sort is uniquely determined,
so insertion sort is a faithful model). -/
def insertRuleSorted (r : TokenRule) : List TokenRule → List TokenRule
  | [] => [r]
  | x :: xs =>
    if x.pattern.length ≤ r.pattern.length then r :: x :: xs
    else x :: insertRuleSorted r xs

def sortRulesByPatternLength : List TokenRule → List TokenRule
  | [] => []
  | r :: rs => insertRuleSorted r (sortRulesByPatternLength rs)

/-- Stable insertion for the final ascending-by-`textStart` match sort. -/
def insertMatchSorted (m : RuleMatch) : List RuleMatch → List RuleMatch
  | [] => [m]
  | x :: xs =>
    if m.textStart ≤ x.textStart then m :: x :: xs
    else x :: insertMatchSorted m xs

def sortMatchesByTextStart : List RuleMatch → List RuleMatch
  | [] => []
  | m :: ms => insertMatchSorted m (sortMatchesByTextStart ms)

/-- rule-engine.ts `findMatches`. -/
def findMatches (text : Str) (rules : List TokenRule) : List RuleMatch :=
  let allTokens := tokenize text
  let wordTokens := getWordTokens allTokens
  let sortedRules := sortRulesByPatternLength rules
  let st := processRules text allTokens wordTokens sortedRules ⟨[], []⟩
  sortMatchesByTextStart st.matchList

/-! ## rule-engine.ts: applyMatches and cleanup -/

/-- Stable insertion for the descending-by-`textStart` sort of
`applyMatches`. -/
def insertMatchSortedDesc (m : RuleMatch) : List RuleMatch → List RuleMatch
  | [] => [m]
  | x :: xs =>
    if x.textStart ≤ m.textStart then m :: x :: xs
    else x :: insertMatchSortedDesc m xs

def sortMatchesByTextStartDesc : List RuleMatch → List RuleMatch
  | [] => []
  | m :: ms => insertMatchSortedDesc m (sortMatchesByTextStartDesc ms)

/-- JavaScript `text.split('\n')` (always at least one segment). -/
def splitOnNl : Str → List Str
  | [] => [[]]
  | c :: rest =>
    let ls := splitOnNl rest
    if c = '\n' then [] :: ls
    else (c :: ls.headD []) :: ls.tail

/-- JavaScript `lines.join('\n')`. -/
def joinNl : List Str → Str
  | [] => []
  | [l] => l
  | l :: ls => l ++ '\n' :: joinNl ls

/-- `line.replace(/[ ]{2,}/g, ' ')`: collapse runs of two or more plain
spaces (the flag records whether the previous character was a space). -/
def collapseSpacesAux : Bool → Str → Str
  | _, [] => []
  | prevSpace, c :: rest =>
    if c = ' ' then
      if prevSpace then collapseSpacesAux true rest
      else ' ' :: collapseSpacesAux true rest
    else c :: collapseSpacesAux false rest

def collapseSpaces (s : Str) : Str := collapseSpacesAux false s

/-- `line.replace(/\s+([.,!?;:])/g, '$1')`: delete every maximal
whitespace run that immediately precedes one of `. , ! ? ; :`
(`pending` buffers the current whitespace run). -/
def stripWsBeforePunctAux : Str → Str → Str
  | pending, [] => pending
  | pending, c :: rest =>
    if jsIsSpace c then stripWsBeforePunctAux (pending ++ [c]) rest
    else if isCleanupPunct c then c :: stripWsBeforePunctAux [] rest
    else pending ++ c :: stripWsBeforePunctAux [] rest

def stripWsBeforePunct (s : Str) : Str := stripWsBeforePunctAux [] s

/-- `line.replace(/^[ ]+/g, '')`. -/
def trimLeadingSpaces (s : Str) : Str := s.dropWhile (fun c => decide (c = ' '))

/-- `line.replace(/[ ]+$/g, '')`. -/
def trimTrailingSpaces (s : Str) : Str :=
  (s.reverse.dropWhile (fun c => decide (c = ' '))).reverse

def isSentenceEnd (c : Char) : Bool :=
  decide (c = '.') || decide (c = '!') || decide (c = '?')

def isAsciiLower (c : Char) : Bool := decide ('a' ≤ c) && decide (c ≤ 'z')

/-- `result.replace(/([.!?]\s+)([a-z])/g, (_, punct, letter) => punct +
letter.toUpperCase())`: `prevPunct` records whether the last character
before the buffered whitespace run `pending` was sentence-ending. -/
def sentenceCapAux : Bool → Str → Str → Str
  | _, pending, [] => pending
  | prevPunct, pending, c :: rest =>
    if jsIsSpace c then sentenceCapAux prevPunct (pending ++ [c]) rest
    else if prevPunct ∧ pending ≠ [] ∧ isAsciiLower c then
      pending ++ c.toUpper :: sentenceCapAux false [] rest
    else pending ++ c :: sentenceCapAux (isSentenceEnd c) [] rest

def sentenceCap (s : Str) : Str := sentenceCapAux false [] s

/-- Uppercase the first non-whitespace character (`result.search(/\S/)`
followed by the conditional replacement; `toUpper` is the identity on a
character that is already its own uppercase). -/
def upperFirstNonWs : Str → Str
  | [] => []
  | c :: rest =>
    if jsIsSpace c then c :: upperFirstNonWs rest
    else c.toUpper :: rest

/-- rule-engine.ts `cleanupText`. -/
def cleanupText (text : Str) : Str :=
  let lines := splitOnNl text
  let cleanedLines := lines.map (fun line =>
    trimTrailingSpaces (trimLeadingSpaces (stripWsBeforePunct (collapseSpaces line))))
  upperFirstNonWs (sentenceCap (joinNl cleanedLines))

/-- rule-engine.ts `applyMatches`. -/
def applyMatches (text : Str) (matchList : List RuleMatch) : Str :=
  let replacementMatches := matchList.filter (fun m => m.replacementText ≠ none)
  let sortedMatches := sortMatchesByTextStartDesc replacementMatches
  let spliced := sortedMatches.foldl
    (fun result m => result.take m.textStart ++ m.replacementText.getD [] ++ result.drop m.textEnd)
    text
  cleanupText spliced

/-- rule-engine.ts `processWithRules`. -/
def processWithRules (text : Str) (rules : List TokenRule) : RuleEngineResult :=
  let allMatches := findMatches text rules
  let replacements := allMatches.filter (fun m => m.rule.replacement ≠ none)
  let suggestions := allMatches.filter (fun m => m.rule.replacement = none)
  { original := text
    transformed := applyMatches text replacements
    matchList := replacements
    suggestions := suggestions }

/-! ## Rule construction (rule-engine.ts `convertRuleEntry`) and the
index.ts entry points -/

/-- types.ts `RuleEntry` (`restructure?: boolean` is falsy when absent). -/
structure RuleEntry where
  pattern : Str
  replacement : Option Str := none
  category : Str
  suggestion : Option Str := none
  restructure : Bool := false

/-- `patternKey.replace(/\s+/g, '-')` used for the rule id. -/
def wsRunsToDashAux : Bool → Str → Str
  | _, [] => []
  | inRun, c :: rest =>
    if jsIsSpace c then
      if inRun then wsRunsToDashAux true rest
      else '-' :: wsRunsToDashAux true rest
    else c :: wsRunsToDashAux false rest

def wsRunsToDash (s : Str) : Str := wsRunsToDashAux false s

def levelStr : StrictnessLevel → Str
  | .conservative => str "conservative"
  | .moderate => str "moderate"
  | .aggressive => str "aggressive"

/-- rule-engine.ts `convertRuleEntry`.  A JavaScript string is truthy
exactly when non-empty, hence the `suggestion` test. -/
def convertRuleEntry (entry : RuleEntry) (level : StrictnessLevel) : TokenRule :=
  let pattern := normalizePatternText entry.pattern
  let patternKey := lowerStr entry.pattern
  let suggestionTruthy : Bool :=
    match entry.suggestion with
    | some s => decide (s ≠ [])
    | none => false
  let replacement : Option (List Str) :=
    if suggestionTruthy ∧ entry.replacement = none then none
    else
      match entry.replacement with
      | none => some []
      | some r => if r = [] then some [] else some (splitOnWs r)
  let captures := RESTRUCTURE_CAPTURES patternKey
  let restructure : Option RestructureConfig :=
    if entry.restructure then
      captures.map (fun cs => { template := [], captures := some cs })
    else none
  { id := levelStr level ++ '-' :: wsRunsToDash patternKey
    pattern := pattern
    replacement := replacement
    level := level
    category := entry.category
    suggestion := entry.suggestion
    constraint := none
    restructure := restructure }

/-- types.ts `Rule` (the flattened legacy shape). -/
structure Rule where
  pattern : Str
  replacement : Option Str
  level : StrictnessLevel
  category : Str
  suggestion : Option Str := none
deriving DecidableEq, Repr

/-- rule-engine.ts `tokenRuleToRule`. -/
def tokenRuleToRule (tokenRule : TokenRule) : Rule :=
  { pattern := joinSpace (tokenRule.pattern.map TokenPattern.text)
    replacement := tokenRule.replacement.map joinSpace
    level := tokenRule.level
    category := tokenRule.category
    suggestion := tokenRule.suggestion }

/-- types.ts `Match` (the source's `end` field is called `stop`). -/
structure Match where
  original : Str
  replacement : Option Str
  start : Nat
  stop : Nat
  rule : Rule
deriving DecidableEq, Repr

/-- index.ts `ruleMatchToMatch`. -/
def ruleMatchToMatch (ruleMatch : RuleMatch) : Match :=
  { original := tokensToText ruleMatch.matchedTokens
    replacement := ruleMatch.replacementText
    start := ruleMatch.textStart
    stop := ruleMatch.textEnd
    rule := tokenRuleToRule ruleMatch.rule }

/-- types.ts `ProcessResult`. -/
structure ProcessResult where
  original : Str
  transformed : Str
  replacements : List Match
  suggestions : List Match
deriving DecidableEq, Repr

/-- types.ts `RulesDatabase`. -/
structure RulesDatabase where
  version : Str
  conservative : List RuleEntry
  moderate : List RuleEntry
  aggressive : List RuleEntry

/-- Modelled from the spec: the file packages/core/src/data/rules.json
that index.ts loads is not among the repository's source files; its
entries are reconstructed from the spec's concrete scenarios (§8):
conservative hedging/minimizing/apologizing rules for "I think we
should", "I just wanted" and "Sorry to bother you"; the moderate
restructuring rule "would you mind if" → "I'd like to"; and the
aggressive suggestion-only entry for "in my opinion". -/
def iThinkEntry : RuleEntry :=
  { pattern := str "I think we should", replacement := some (str "we should"),
    category := str "hedging" }

def iJustWantedEntry : RuleEntry :=
  { pattern := str "I just wanted", replacement := some (str "I wanted"),
    category := str "minimizing" }

def sorryToBotherEntry : RuleEntry :=
  { pattern := str "Sorry to bother you", replacement := some (str "Excuse me"),
    category := str "apologizing" }

def wouldYouMindEntry : RuleEntry :=
  { pattern := str "would you mind if", replacement := some (str "I'd like to"),
    category := str "weak-request", restructure := true }

def inMyOpinionEntry : RuleEntry :=
  { pattern := str "in my opinion", category := str "filler",
    suggestion := some (str "State the view directly") }

def rulesData : RulesDatabase :=
  { version := str "1.0.0"
    conservative := [iThinkEntry, iJustWantedEntry, sorryToBotherEntry]
    moderate := [wouldYouMindEntry]
    aggressive := [inMyOpinionEntry] }

def iThinkRule : TokenRule := convertRuleEntry iThinkEntry .conservative

def iJustWantedRule : TokenRule := convertRuleEntry iJustWantedEntry .conservative

def sorryToBotherRule : TokenRule := convertRuleEntry sorryToBotherEntry .conservative

def wouldYouMindRule : TokenRule := convertRuleEntry wouldYouMindEntry .moderate

def inMyOpinionRule : TokenRule := convertRuleEntry inMyOpinionEntry .aggressive

/-- index.ts `buildTokenRules` / `getApplicableTokenRules` (the
process-wide cache is pure memoisation and is dropped). -/
def getApplicableTokenRules (level : StrictnessLevel) : List TokenRule :=
  let conservativeRules := rulesData.conservative.map (convertRuleEntry · .conservative)
  let moderateRules := rulesData.moderate.map (convertRuleEntry · .moderate)
  let aggressiveRules := rulesData.aggressive.map (convertRuleEntry · .aggressive)
  conservativeRules ++
    (if level = .moderate ∨ level = .aggressive then moderateRules else []) ++
    (if level = .aggressive then aggressiveRules else [])

/-- index.ts `processText`. -/
def processText (text : Str) (level : StrictnessLevel) : ProcessResult :=
  let tokenRules := getApplicableTokenRules level
  let result := processWithRules text tokenRules
  { original := text
    transformed := result.transformed
    replacements := result.matchList.map ruleMatchToMatch
    suggestions := result.suggestions.map ruleMatchToMatch }

/-- Substring test (`transformed.includes(phrase)` in JavaScript terms):
does `needle` occur contiguously inside `hay`? -/
def containsSubstr (hay needle : Str) : Bool :=
  needle.isPrefixOf hay ||
    match hay with
    | [] => false
    | _ :: t => containsSubstr t needle

/-! ## Derived definitions used by the verification statements -/

/-- The case classes of the replacement-casing policy. -/
inductive CaseClass where
  | allUpper
  | allLower
  | capitalized
  | unclassifiable
deriving DecidableEq, Repr

/-- Classification of the first matched word, with the tests of
`preserveCase` in their source order. -/
def classifyWord (w : Str) : CaseClass :=
  if 1 < w.length ∧ w = upperStr w ∧ w ≠ lowerStr w then .allUpper
  else if w = lowerStr w ∧ w ≠ upperStr w then .allLower
  else if isCapitalizedWord w then .capitalized
  else .unclassifiable

/-- The casing policy as classify-then-apply. -/
def specPreserveCase (original replacement : Str) : Str :=
  if replacement = [] then replacement
  else
    let firstWord := (splitOnWs original).headD original
    match classifyWord firstWord with
    | .allUpper => upperStr replacement
    | .allLower => lowerStr replacement
    | .capitalized => capitalizeFirst replacement
    | .unclassifiable => replacement

/-- Intersection of two half-open spans given as pairs. -/
def spansIntersect (a b : Nat × Nat) : Prop := b.1 < a.2 ∧ a.1 < b.2

/-- Intersection of the `[textStart, textEnd)` ranges of two matches. -/
def RangesIntersect (m m' : RuleMatch) : Prop :=
  m'.textStart < m.textEnd ∧ m.textStart < m'.textEnd

/-- A contiguous word-level occurrence of the phrase `ws` at word index
`i`: the tokens `wt[i], wt[i+1], …` exist and normalize to `ws` in
order. -/
def segAtB (wt : List Token) : Nat → List Str → Bool
  | _, [] => true
  | i, w :: ws =>
    (match wt[i]? with
     | some t => decide (t.normalized = w)
     | none => false) && segAtB wt (i + 1) ws

def segAt (wt : List Token) (i : Nat) (ws : List Str) : Prop := segAtB wt i ws = true

/-- The accepted `(match, recorded range)` pairs a scan of one rule adds
to an initial `usedRanges` list `u` (the matcher's inner loop, with the
state contribution made explicit). -/
def scanDeltas (text : Str) (allTokens wordTokens : List Token) (rule : TokenRule) :
    List Nat → List UsedRange → List (RuleMatch × UsedRange)
  | [], _ => []
  | i :: rest, u =>
    match attemptRuleAt text allTokens wordTokens rule i with
    | none => scanDeltas text allTokens wordTokens rule rest u
    | some (m, r) =>
      if u.any (rangesOverlap r.start r.stop) then
        scanDeltas text allTokens wordTokens rule rest u
      else (m, r) :: scanDeltas text allTokens wordTokens rule rest (u ++ [r])

/-- Demonstration rules used by the concrete theorems. -/
def demoRestructureRule : TokenRule :=
  convertRuleEntry
    { pattern := str "would you mind if", replacement := some (str "I'd like to"),
      category := str "weak-request", restructure := true } .moderate

def demoSubjectRule : TokenRule :=
  convertRuleEntry
    { pattern := str "i", replacement := some (str "x"), category := str "test" } .conservative

def demoOverlapText : Str := str "would you mind if i go"

def demoSuggestionRestructureRule : TokenRule :=
  convertRuleEntry
    { pattern := str "would you mind if", category := str "weak-request",
      suggestion := some (str "ask directly"), restructure := true } .moderate

def demoShortRule : TokenRule :=
  convertRuleEntry
    { pattern := str "we should", replacement := some (str "we will"),
      category := str "hedging" } .conservative

def demoLongRule : TokenRule :=
  convertRuleEntry
    { pattern := str "I think we should", replacement := some (str "We should"),
      category := str "hedging" } .conservative

def demoHedgeSuggestionRule : TokenRule :=
  convertRuleEntry
    { pattern := str "i think we should", category := str "hedging",
      suggestion := some (str "drop the hedge") } .conservative

def demoParityText : Str := str "i think we should go"

/-- The matcher-state invariant behind the no-overlap property: every
recorded range is non-degenerate, every accepted match's span is exactly
one of the recorded ranges, and no two accepted matches intersect. -/
def StInv (st : FMState) : Prop :=
  (∀ m ∈ st.matchList, m.textStart < m.textEnd ∧
     ∃ u ∈ st.usedRanges, u.start = m.textStart ∧ u.stop = m.textEnd) ∧
  (∀ u ∈ st.usedRanges, u.start < u.stop) ∧
  List.Pairwise (fun m m' => ¬ RangesIntersect m m') st.matchList

/-- The accepted pairs of the longer demo rule's scan from an empty
state (the first scan `findMatches` runs on the two-rule demo list). -/
def longDeltas (text : Str) : List (RuleMatch × UsedRange) :=
  scanDeltas text (tokenize text) (getWordTokens (tokenize text)) demoLongRule
    (List.range (getWordTokens (tokenize text)).length) []

/-- The accepted pairs of the shorter demo rule's scan, run after the
longer rule's scan recorded its ranges. -/
def shortDeltas (text : Str) : List (RuleMatch × UsedRange) :=
  scanDeltas text (tokenize text) (getWordTokens (tokenize text)) demoShortRule
    (List.range (getWordTokens (tokenize text)).length) ((longDeltas text).map Prod.snd)

/-! ## Tokenizer lemmas -/

theorem stripAposRev_append (wrev rest : Str) :
    (stripAposRev wrev rest).1.reverse ++ (stripAposRev wrev rest).2 = wrev.reverse ++ rest := by
  induction wrev generalizing rest with
  | nil => simp [stripAposRev]
  | cons c w ih =>
    rw [stripAposRev]
    split
    · rename_i h
      rw [ih]
      simp [h.1, List.append_assoc]
    · simp

theorem stripAposRev_ne_nil (wrev rest : Str) (h : ∃ c ∈ wrev, c ≠ '\'') :
    (stripAposRev wrev rest).1 ≠ [] := by
  induction wrev generalizing rest with
  | nil => simp at h
  | cons c w ih =>
    rw [stripAposRev]
    split
    · rename_i hc
      apply ih
      obtain ⟨d, hd, hne⟩ := h
      rcases List.mem_cons.mp hd with rfl | hm
      · exact absurd hc.1 hne
      · exact ⟨d, hm, hne⟩
    · simp

theorem stripTrailingApostrophes_append (w rest : Str) :
    (stripTrailingApostrophes w rest).1 ++ (stripTrailingApostrophes w rest).2 = w ++ rest := by
  have h := stripAposRev_append w.reverse rest
  simpa [stripTrailingApostrophes] using h

theorem stripTrailingApostrophes_ne_nil (w rest : Str) (h : ∃ c ∈ w, c ≠ '\'') :
    (stripTrailingApostrophes w rest).1 ≠ [] := by
  have h' : ∃ c ∈ w.reverse, c ≠ '\'' := by
    obtain ⟨c, hc, hne⟩ := h
    exact ⟨c, List.mem_reverse.mpr hc, hne⟩
  have := stripAposRev_ne_nil w.reverse rest h'
  simpa [stripTrailingApostrophes] using this

theorem length_takeWhile_add_dropWhile (p : Char → Bool) (l : Str) :
    (l.takeWhile p).length + (l.dropWhile p).length = l.length := by
  rw [← List.length_append, List.takeWhile_append_dropWhile]

/-- In the tokenizer's word branch the candidate run always contains a
non-apostrophe character. -/
theorem word_run_has_non_apos (c : Char) (cs : Str)
    (h2 : ¬ ((¬ jsIsWordChar c ∧ c ≠ '\'') ∨ (c = '\'' ∧ ¬ nextIsWord cs))) :
    ∃ d ∈ (c :: cs).takeWhile jsIsWordOrApos, d ≠ '\'' := by
  push_neg at h2
  by_cases hw : jsIsWordChar c
  · refine ⟨c, ?_, ?_⟩
    · rw [List.takeWhile_cons_of_pos (by simp [jsIsWordOrApos, hw])]
      exact List.mem_cons_self _ _
    · intro hc
      rw [hc] at hw
      exact absurd hw (by decide)
  · have hc : c = '\'' := h2.1 hw
    have hnw : nextIsWord cs = true := h2.2 hc
    match cs, hnw with
    | d :: cs', hnw =>
      have hd : jsIsWordChar d := by simpa [nextIsWord] using hnw
      refine ⟨d, ?_, ?_⟩
      · rw [List.takeWhile_cons_of_pos (by simp [jsIsWordOrApos, hc]),
          List.takeWhile_cons_of_pos (by simp [jsIsWordOrApos, hd])]
        exact List.mem_cons_of_mem _ (List.mem_cons_self _ _)
      · intro hde
        rw [hde] at hd
        exact absurd hd (by decide)

/-- Losslessness of the tokenizer pass: the concatenated token texts
reproduce the remaining input. -/
theorem tokenizeAux_text (fuel : Nat) :
    ∀ pos l, l.length ≤ fuel → tokensToText (tokenizeAux fuel pos l) = l := by
  induction fuel with
  | zero =>
    intro pos l hl
    have : l = [] := List.eq_nil_of_length_eq_zero (Nat.le_zero.mp hl)
    subst this
    simp [tokenizeAux, tokensToText]
  | succ fuel ih =>
    intro pos l hl
    match l with
    | [] => simp [tokenizeAux, tokensToText]
    | c :: cs =>
      rw [tokenizeAux]
      split
      · rename_i h1
        rw [tokensToText]
        have hrun : (c :: cs).takeWhile jsIsSpace = c :: cs.takeWhile jsIsSpace :=
          List.takeWhile_cons_of_pos (by simpa using h1)
        have hlen : ((c :: cs).dropWhile jsIsSpace).length ≤ fuel := by
          have hsum := length_takeWhile_add_dropWhile jsIsSpace (c :: cs)
          have : 1 ≤ ((c :: cs).takeWhile jsIsSpace).length := by
            rw [hrun]; simp
          omega
        rw [ih _ _ hlen, List.takeWhile_append_dropWhile]
      · split
        · rw [tokensToText, ih _ _ (by simpa using hl)]
          rfl
        · split
          · rename_i h2 h3
            rw [tokensToText]
            set run := (c :: cs).takeWhile jsIsWordOrApos with hrundef
            set rest := (c :: cs).dropWhile jsIsWordOrApos with hrestdef
            set stripped := stripTrailingApostrophes run rest with hstr
            have happ : stripped.1 ++ stripped.2 = run ++ rest :=
              stripTrailingApostrophes_append run rest
            have hne : stripped.1 ≠ [] :=
              stripTrailingApostrophes_ne_nil run rest (word_run_has_non_apos c cs h2)
            have hruns : run ++ rest = c :: cs := by
              rw [hrundef, hrestdef]
              exact List.takeWhile_append_dropWhile _ _
            have happ' : stripped.1 ++ stripped.2 = c :: cs := by rw [happ, hruns]
            have hlensum : stripped.1.length + stripped.2.length = cs.length + 1 := by
              have := congrArg List.length happ'
              simpa using this
            have hlen2 : stripped.2.length ≤ fuel := by
              have h1le : 1 ≤ stripped.1.length := by
                match h : stripped.1 with
                | [] => exact absurd h hne
                | _ :: _ => simp
              have hl' : cs.length + 1 ≤ fuel + 1 := by simpa using hl
              omega
            rw [ih _ _ hlen2]
            simpa using happ'
          · rw [tokensToText, ih _ _ (by simpa using hl)]
            rfl

theorem tokenizeAux_head_start : ∀ fuel pos l (t : Token) ts,
    tokenizeAux fuel pos l = t :: ts → t.start = pos := by
  intro fuel pos l t ts h
  match fuel, l with
  | 0, _ => simp [tokenizeAux] at h
  | _ + 1, [] => simp [tokenizeAux] at h
  | fuel + 1, c :: cs =>
    rw [tokenizeAux] at h
    split at h
    · cases h; rfl
    · split at h
      · cases h; rfl
      · split at h
        · cases h; rfl
        · cases h; rfl

/-- The positional invariants of a token list produced at offset `pos`
from `n` remaining characters: every token starts at or after `pos`,
covers exactly its text, is non-empty and ends within the input; the
list is contiguous (each token ends where the next starts) and
non-overlapping. -/
def TokFacts (pos n : Nat) (T : List Token) : Prop :=
  (∀ t ∈ T, pos ≤ t.start ∧ t.stop = t.start + t.text.length ∧ t.text ≠ [] ∧ t.stop ≤ pos + n) ∧
  List.Chain' (fun a b => a.stop = b.start) T ∧
  List.Pairwise (fun a b => a.stop ≤ b.start) T

theorem tokFacts_nil (pos n : Nat) : TokFacts pos n [] := by
  refine ⟨?_, ?_, ?_⟩ <;> simp

theorem tokFacts_cons (pos n : Nat) (txt : Str) (ty : TokenType) (norm : Str)
    (T' : List Token) (m : Nat)
    (hne : txt ≠ [])
    (hsum : txt.length + m = n)
    (hT' : TokFacts (pos + txt.length) m T')
    (hhead : ∀ t ts, T' = t :: ts → t.start = pos + txt.length) :
    TokFacts pos n
      ({ text := txt, type := ty, start := pos, stop := pos + txt.length,
         normalized := norm } :: T') := by
  obtain ⟨helem, hchain, hpair⟩ := hT'
  refine ⟨?_, ?_, ?_⟩
  · intro t ht
    rcases List.mem_cons.mp ht with rfl | hm
    · exact ⟨le_refl _, rfl, hne, by simp; omega⟩
    · obtain ⟨h1, h2, h3, h4⟩ := helem t hm
      exact ⟨by omega, h2, h3, by omega⟩
  · rw [List.chain'_cons']
    refine ⟨?_, hchain⟩
    intro b hb
    match hT : T' with
    | [] => simp at hb
    | b0 :: rest' =>
      simp at hb
      subst hb
      have := hhead b0 rest' rfl
      show pos + txt.length = b0.start
      omega
  · rw [List.pairwise_cons]
    refine ⟨?_, hpair⟩
    intro t ht
    have h1 := (helem t ht).1
    show pos + txt.length ≤ t.start
    omega

theorem tokenizeAux_facts (fuel : Nat) :
    ∀ pos l, l.length ≤ fuel → TokFacts pos l.length (tokenizeAux fuel pos l) := by
  induction fuel with
  | zero =>
    intro pos l hl
    have hn : l = [] := List.eq_nil_of_length_eq_zero (Nat.le_zero.mp hl)
    subst hn
    rw [tokenizeAux]
    exact tokFacts_nil pos 0
  | succ fuel ih =>
    intro pos l hl
    match l with
    | [] =>
      rw [tokenizeAux]
      exact tokFacts_nil pos 0
    | c :: cs =>
      rw [tokenizeAux]
      split
      · rename_i h1
        have hrun : (c :: cs).takeWhile jsIsSpace = c :: cs.takeWhile jsIsSpace :=
          List.takeWhile_cons_of_pos (by simpa using h1)
        have hrun_ne : (c :: cs).takeWhile jsIsSpace ≠ [] := by rw [hrun]; simp
        have hsum := length_takeWhile_add_dropWhile jsIsSpace (c :: cs)
        have hfuel : ((c :: cs).dropWhile jsIsSpace).length ≤ fuel := by
          have h1le : 1 ≤ ((c :: cs).takeWhile jsIsSpace).length := by rw [hrun]; simp
          have hl' : cs.length + 1 ≤ fuel + 1 := by simpa using hl
          simp at hsum
          omega
        exact tokFacts_cons pos (c :: cs).length _ _ _ _ _ hrun_ne hsum (ih _ _ hfuel)
          (fun t ts h => tokenizeAux_head_start fuel _ _ t ts h)
      · split
        · have hfuel : cs.length ≤ fuel := by simpa using hl
          have hsum : ([c] : Str).length + cs.length = (c :: cs).length := by
            simp [Nat.add_comm]
          exact tokFacts_cons pos (c :: cs).length [c] _ _ _ _ (by simp) hsum (ih _ _ hfuel)
            (fun t ts h => tokenizeAux_head_start fuel _ _ t ts h)
        · split
          · rename_i h2 h3
            set run := (c :: cs).takeWhile jsIsWordOrApos with hrundef
            set rest := (c :: cs).dropWhile jsIsWordOrApos with hrestdef
            set stripped := stripTrailingApostrophes run rest with hstr
            have happ : stripped.1 ++ stripped.2 = run ++ rest :=
              stripTrailingApostrophes_append run rest
            have hne : stripped.1 ≠ [] :=
              stripTrailingApostrophes_ne_nil run rest (word_run_has_non_apos c cs h2)
            have hruns : run ++ rest = c :: cs := by
              rw [hrundef, hrestdef]
              exact List.takeWhile_append_dropWhile _ _
            have happ' : stripped.1 ++ stripped.2 = c :: cs := by rw [happ, hruns]
            have hlensum : stripped.1.length + stripped.2.length = cs.length + 1 := by
              have := congrArg List.length happ'
              simpa using this
            have h1le : 1 ≤ stripped.1.length := by
              match h : stripped.1 with
              | [] => exact absurd h hne
              | _ :: _ => simp
            have hfuel : stripped.2.length ≤ fuel := by
              have hl' : cs.length + 1 ≤ fuel + 1 := by simpa using hl
              omega
            have hsum : stripped.1.length + stripped.2.length = (c :: cs).length := by
              simpa using hlensum
            exact tokFacts_cons pos (c :: cs).length _ _ _ _ _ hne hsum (ih _ _ hfuel)
              (fun t ts h => tokenizeAux_head_start fuel _ _ t ts h)
          · have hfuel : cs.length ≤ fuel := by simpa using hl
            have hsum : ([c] : Str).length + cs.length = (c :: cs).length := by
              simp [Nat.add_comm]
            exact tokFacts_cons pos (c :: cs).length [c] _ _ _ _ (by simp) hsum (ih _ _ hfuel)
              (fun t ts h => tokenizeAux_head_start fuel _ _ t ts h)

theorem tokenize_facts (s : Str) : TokFacts 0 s.length (tokenize s) :=
  tokenizeAux_facts s.length 0 s (le_refl _)

theorem tokenize_start_lt_stop (s : Str) : ∀ t ∈ tokenize s, t.start < t.stop := by
  intro t ht
  obtain ⟨_, h2, h3, _⟩ := (tokenize_facts s).1 t ht
  have : 0 < t.text.length := List.length_pos.mpr h3
  omega

theorem tokenize_pairwise (s : Str) :
    List.Pairwise (fun a b => a.stop ≤ b.start) (tokenize s) :=
  (tokenize_facts s).2.2

theorem getWordTokens_pairwise (s : Str) :
    List.Pairwise (fun a b => a.stop ≤ b.start) (getWordTokens (tokenize s)) :=
  (tokenize_pairwise s).sublist (List.filter_sublist _)

theorem getWordTokens_start_lt_stop (s : Str) :
    ∀ t ∈ getWordTokens (tokenize s), t.start < t.stop := by
  intro t ht
  exact tokenize_start_lt_stop s t (List.mem_of_mem_filter ht)

/-! ## Matcher structure lemmas -/

theorem insertMatchSorted_perm (m : RuleMatch) (l : List RuleMatch) :
    (insertMatchSorted m l).Perm (m :: l) := by
  induction l with
  | nil => exact List.Perm.refl _
  | cons x xs ih =>
    rw [insertMatchSorted]
    split
    · exact List.Perm.refl _
    · exact (ih.cons x).trans (List.Perm.swap m x xs)

theorem sortMatchesByTextStart_perm (l : List RuleMatch) :
    (sortMatchesByTextStart l).Perm l := by
  induction l with
  | nil => exact List.Perm.refl _
  | cons m ms ih =>
    exact (insertMatchSorted_perm m (sortMatchesByTextStart ms)).trans (ih.cons m)

theorem mem_sortMatchesByTextStart (m : RuleMatch) (l : List RuleMatch) :
    m ∈ sortMatchesByTextStart l ↔ m ∈ l :=
  (sortMatchesByTextStart_perm l).mem_iff

/-- `scanPositions` in delta form: the scan appends the accepted pairs of
`scanDeltas` to both state components. -/
theorem scanPositions_eq (text : Str) (allTokens wordTokens : List Token) (rule : TokenRule) :
    ∀ ps M U,
      scanPositions text allTokens wordTokens rule ps ⟨M, U⟩ =
        ⟨M ++ (scanDeltas text allTokens wordTokens rule ps U).map Prod.fst,
         U ++ (scanDeltas text allTokens wordTokens rule ps U).map Prod.snd⟩ := by
  intro ps
  induction ps with
  | nil => intro M U; simp [scanPositions, scanDeltas]
  | cons i rest ih =>
    intro M U
    rw [scanPositions, scanDeltas]
    cases h : attemptRuleAt text allTokens wordTokens rule i with
    | none =>
      have ht : tryRuleAt text allTokens wordTokens rule i ⟨M, U⟩ = ⟨M, U⟩ := by
        rw [tryRuleAt, h]
      rw [ht, ih]
    | some mr =>
      obtain ⟨m, r⟩ := mr
      dsimp only
      by_cases hov : U.any (rangesOverlap r.start r.stop)
      · have ht : tryRuleAt text allTokens wordTokens rule i ⟨M, U⟩ = ⟨M, U⟩ := by
          rw [tryRuleAt, h]
          simp [hov]
        rw [ht, if_pos hov, ih]
      · have ht : tryRuleAt text allTokens wordTokens rule i ⟨M, U⟩ =
            ⟨M ++ [m], U ++ [r]⟩ := by
          rw [tryRuleAt, h]
          simp [hov]
        rw [ht, if_neg hov, ih]
        simp

theorem processRules_append (text : Str) (allTokens wordTokens : List Token) :
    ∀ L1 L2 st, processRules text allTokens wordTokens (L1 ++ L2) st =
      processRules text allTokens wordTokens L2 (processRules text allTokens wordTokens L1 st) := by
  intro L1
  induction L1 with
  | nil => intro L2 st; rfl
  | cons r rs ih =>
    intro L2 st
    rw [List.cons_append, processRules, processRules, ih]

/-- Every rule scan only appends to the state. -/
theorem scanRule_append (text : Str) (allTokens wordTokens : List Token) (st : FMState)
    (rule : TokenRule) :
    ∃ dm du, scanRule text allTokens wordTokens st rule =
      ⟨st.matchList ++ dm, st.usedRanges ++ du⟩ := by
  obtain ⟨M, U⟩ := st
  exact ⟨_, _, scanPositions_eq text allTokens wordTokens rule _ M U⟩

theorem processRules_mono (text : Str) (allTokens wordTokens : List Token) :
    ∀ rules st, ∃ dm du, processRules text allTokens wordTokens rules st =
      ⟨st.matchList ++ dm, st.usedRanges ++ du⟩ := by
  intro rules
  induction rules with
  | nil => intro st; exact ⟨[], [], by rw [processRules]; simp⟩
  | cons r rs ih =>
    intro st
    obtain ⟨dm1, du1, h1⟩ := scanRule_append text allTokens wordTokens st r
    obtain ⟨dm2, du2, h2⟩ := ih (scanRule text allTokens wordTokens st r)
    rw [processRules, h2, h1]
    exact ⟨dm1 ++ dm2, du1 ++ du2, by simp⟩

/-- Provenance: every pair a scan accepts comes from a successful
attempt at one of its positions. -/
theorem scanDeltas_provenance (text : Str) (allTokens wordTokens : List Token)
    (rule : TokenRule) :
    ∀ ps U mr, mr ∈ scanDeltas text allTokens wordTokens rule ps U →
      ∃ i ∈ ps, attemptRuleAt text allTokens wordTokens rule i = some mr := by
  intro ps
  induction ps with
  | nil => intro U mr h; simp [scanDeltas] at h
  | cons i rest ih =>
    intro U mr h
    rw [scanDeltas] at h
    split at h
    · obtain ⟨j, hj, hatt⟩ := ih U mr h
      exact ⟨j, List.mem_cons_of_mem _ hj, hatt⟩
    · rename_i m r ha
      split at h
      · obtain ⟨j, hj, hatt⟩ := ih U mr h
        exact ⟨j, List.mem_cons_of_mem _ hj, hatt⟩
      · rcases List.mem_cons.mp h with rfl | hm
        · exact ⟨i, List.mem_cons_self _ _, ha⟩
        · obtain ⟨j, hj, hatt⟩ := ih _ _ hm
          exact ⟨j, List.mem_cons_of_mem _ hj, hatt⟩

/-- The scan result depends on the initial `usedRanges` only through the
overlap tests of the rule's own successful attempts. -/
theorem scanDeltas_congr (text : Str) (allTokens wordTokens : List Token) (rule : TokenRule) :
    ∀ ps U U',
      (∀ i ∈ ps, ∀ m r, attemptRuleAt text allTokens wordTokens rule i = some (m, r) →
        U.any (rangesOverlap r.start r.stop) = U'.any (rangesOverlap r.start r.stop)) →
      scanDeltas text allTokens wordTokens rule ps U =
        scanDeltas text allTokens wordTokens rule ps U' := by
  intro ps
  induction ps with
  | nil => intro U U' _; rfl
  | cons i rest ih =>
    intro U U' hcong
    rw [scanDeltas, scanDeltas]
    cases ha : attemptRuleAt text allTokens wordTokens rule i with
    | none =>
      exact ih U U' (fun j hj => hcong j (List.mem_cons_of_mem _ hj))
    | some mr =>
      obtain ⟨m, r⟩ := mr
      dsimp only
      have heq := hcong i (List.mem_cons_self _ _) m r ha
      rw [← heq]
      by_cases hov : U.any (rangesOverlap r.start r.stop)
      · simp only [if_pos hov]
        exact ih U U' (fun j hj => hcong j (List.mem_cons_of_mem _ hj))
      · simp only [if_neg hov]
        have hrec : scanDeltas text allTokens wordTokens rule rest (U ++ [r]) =
            scanDeltas text allTokens wordTokens rule rest (U' ++ [r]) := by
          refine ih (U ++ [r]) (U' ++ [r]) ?_
          intro j hj m' r' ha'
          rw [List.any_append, List.any_append,
            hcong j (List.mem_cons_of_mem _ hj) m' r' ha']
        rw [hrec]

/-- Extending the initial `usedRanges` with ranges that overlap none of
the rule's candidate spans does not change what the scan accepts. -/
theorem scanDeltas_lockstep (text : Str) (allTokens wordTokens : List Token) (rule : TokenRule)
    (ps : List Nat) (U E : List UsedRange)
    (hE : ∀ i ∈ ps, ∀ m r, attemptRuleAt text allTokens wordTokens rule i = some (m, r) →
      ∀ e ∈ E, rangesOverlap r.start r.stop e = false) :
    scanDeltas text allTokens wordTokens rule ps (U ++ E) =
      scanDeltas text allTokens wordTokens rule ps U := by
  refine scanDeltas_congr text allTokens wordTokens rule ps (U ++ E) U ?_
  intro i hi m r ha
  rw [List.any_append]
  have hEfalse : E.any (rangesOverlap r.start r.stop) = false :=
    List.any_eq_false.mpr (fun e he => by rw [hE i hi m r ha e he]; simp)
  rw [hEfalse, Bool.or_false]

/-! ## Pattern-match characterization lemmas -/

theorem segAtB_get (wt : List Token) :
    ∀ ws i, segAtB wt i ws = true →
      ∀ k, i ≤ k → k < i + ws.length →
        ∃ t, wt[k]? = some t ∧ ws[k - i]? = some t.normalized := by
  intro ws
  induction ws with
  | nil =>
    intro i _ k hik hk
    simp at hk
    omega
  | cons w ws ih =>
    intro i hseg k hik hk
    rw [segAtB, Bool.and_eq_true] at hseg
    obtain ⟨h1, h2⟩ := hseg
    cases hw : wt[i]? with
    | none => rw [hw] at h1; simp at h1
    | some t =>
      rw [hw] at h1
      have ht : t.normalized = w := by simpa using h1
      by_cases hki : k = i
      · subst hki
        refine ⟨t, hw, ?_⟩
        simp [ht]
      · have hik' : i + 1 ≤ k := by omega
        have hk' : k < (i + 1) + ws.length := by simp at hk; omega
        obtain ⟨t', ht1, ht2⟩ := ih (i + 1) h2 k hik' hk'
        refine ⟨t', ht1, ?_⟩
        have : k - i = (k - (i + 1)) + 1 := by omega
        rw [this]
        simpa using ht2

theorem segAtB_mem (wt : List Token) (ws : List Str) (i : Nat)
    (hseg : segAtB wt i ws = true) (k : Nat) (hik : i ≤ k) (hk : k < i + ws.length) :
    ∃ t, wt[k]? = some t ∧ t.normalized ∈ ws := by
  obtain ⟨t, h1, h2⟩ := segAtB_get wt ws i hseg k hik hk
  exact ⟨t, h1, List.getElem?_mem h2⟩

theorem matchesPattern_ge (wt : List Token) :
    ∀ pat i, i ≤ (matchesPattern wt i pat).2 := by
  intro pat
  induction pat with
  | nil => intro i; simp [matchesPattern]
  | cons p ps ih =>
    intro i
    rw [matchesPattern]
    split
    · split
      · exact ih i
      · exact Nat.le_refl i
    · split
      · exact Nat.le_trans (Nat.le_succ i) (ih (i + 1))
      · split
        · exact ih i
        · exact Nat.le_refl i

theorem matchesPattern_nonopt_forward (wt : List Token) :
    ∀ pat i, (∀ p ∈ pat, p.optional = false) →
      (matchesPattern wt i pat).1 = true →
      (matchesPattern wt i pat).2 = i + pat.length ∧
        segAtB wt i (pat.map TokenPattern.text) = true := by
  intro pat
  induction pat with
  | nil => intro i _ _; simp [matchesPattern, segAtB]
  | cons p ps ih =>
    intro i hopt h
    have hp : p.optional = false := hopt p (List.mem_cons_self _ _)
    rw [matchesPattern] at h ⊢
    split at h
    · rw [hp] at h
      simp at h
    · rename_i t hw
      split at h
      · rename_i ht
        obtain ⟨h1, h2⟩ := ih (i + 1) (fun q hq => hopt q (List.mem_cons_of_mem _ hq)) h
        constructor
        · simp only [if_pos ht, h1, List.length_cons]
          omega
        · rw [List.map_cons, segAtB, Bool.and_eq_true, hw]
          exact ⟨by simpa using ht, h2⟩
      · rw [hp] at h
        simp at h

theorem matchesPattern_nonopt_backward (wt : List Token) :
    ∀ pat i, (∀ p ∈ pat, p.optional = false) →
      segAtB wt i (pat.map TokenPattern.text) = true →
      matchesPattern wt i pat = (true, i + pat.length) := by
  intro pat
  induction pat with
  | nil => intro i _ _; simp [matchesPattern]
  | cons p ps ih =>
    intro i hopt hseg
    rw [List.map_cons, segAtB, Bool.and_eq_true] at hseg
    obtain ⟨h1, h2⟩ := hseg
    rw [matchesPattern]
    split
    · rename_i hw
      rw [hw] at h1
      simp at h1
    · rename_i t hw
      rw [hw] at h1
      have ht : t.normalized = p.text := by simpa using h1
      rw [if_pos ht, ih (i + 1) (fun q hq => hopt q (List.mem_cons_of_mem _ hq)) h2]
      simp
      omega

theorem take_head (n : Nat) (hn : 0 < n) (l : List Token) : (l.take n).head? = l.head? := by
  cases l with
  | nil => simp
  | cons a l =>
    cases n with
    | zero => omega
    | succ n => simp

theorem attemptCore_some_fields (text : Str) (allT : List Token) (rule : TokenRule)
    (i e : Nat) (tf tl : Token) (m : RuleMatch) (r : UsedRange)
    (h : attemptCore text allT rule i e tf tl = some (m, r)) :
    m.rule = rule ∧ m.tokenStart = i ∧ m.textStart = tf.start ∧
    r.start = tf.start ∧ r.stop = tl.stop ∧
    (rule.restructure = none → m.textEnd = tl.stop) := by
  unfold attemptCore at h
  by_cases hc : constraintOkFor rule
      { before := allT.filter (fun t => decide (t.stop ≤ tf.start))
        matched := getTokensBetween allT tf.start tl.stop
        after := allT.filter (fun t => decide (tl.stop ≤ t.start))
        allTokens := allT
        originalText := text }
  · rw [if_neg (fun hn => hn hc)] at h
    rw [Option.some.injEq, Prod.mk.injEq] at h
    obtain ⟨hm, hr⟩ := h
    subst hm
    subst hr
    refine ⟨rfl, rfl, rfl, rfl, rfl, ?_⟩
    intro hre
    simp only [hre]
  · rw [if_pos hc] at h
    exact absurd h (by simp)

/-- Field-level consequences of a successful attempt (no assumption on
the rule): the produced match carries the rule and position, its
`textStart` is the recorded range's start, and without restructuring its
`textEnd` is the recorded range's end; the recorded range's endpoints
come from word tokens at indices `i` and `i + n - 1`. -/
theorem attemptRuleAt_some_fields (text : Str) (allT wt : List Token) (rule : TokenRule)
    (i : Nat) (m : RuleMatch) (r : UsedRange)
    (h : attemptRuleAt text allT wt rule i = some (m, r)) :
    m.rule = rule ∧ m.tokenStart = i ∧ m.textStart = r.start ∧
    (rule.restructure = none → m.textEnd = r.stop) ∧
    (matchesPattern wt i rule.pattern).1 = true ∧
    ∃ n tf tl, 0 < n ∧ n ≤ (matchesPattern wt i rule.pattern).2 - i ∧
      wt[i]? = some tf ∧ wt[i + n - 1]? = some tl ∧
      r.start = tf.start ∧ r.stop = tl.stop ∧
      n = ((wt.drop i).take ((matchesPattern wt i rule.pattern).2 - i)).length := by
  unfold attemptRuleAt at h
  dsimp only at h
  split at h
  · simp at h
  · rename_i hres
    split at h
    · rename_i tf tl hf hl
      obtain ⟨hm1, hm2, hm3, hr1, hr2, hm4⟩ :=
        attemptCore_some_fields text allT rule i (matchesPattern wt i rule.pattern).2
          tf tl m r h
      set mwt := (wt.drop i).take ((matchesPattern wt i rule.pattern).2 - i) with hmwt
      have hmne : mwt ≠ [] := by
        intro hemp
        rw [hemp] at hf
        simp at hf
      have hnpos : 0 < mwt.length := List.length_pos.mpr hmne
      have hnles : mwt.length ≤ (matchesPattern wt i rule.pattern).2 - i := by
        rw [hmwt]
        exact List.length_take_le _ _
      have htake_pos : 0 < (matchesPattern wt i rule.pattern).2 - i := by
        by_contra hz
        have hzz : (matchesPattern wt i rule.pattern).2 - i = 0 := by omega
        rw [hmwt, hzz] at hmne
        simp at hmne
      have hfi : wt[i]? = some tf := by
        rw [hmwt] at hf
        rw [take_head _ htake_pos, List.head?_drop] at hf
        exact hf
      have hli : wt[i + mwt.length - 1]? = some tl := by
        have h1 : mwt.getLast? = mwt[mwt.length - 1]? := List.getLast?_eq_getElem? _
        rw [h1] at hl
        rw [hmwt, List.getElem?_take] at hl
        rw [if_pos (by rw [← hmwt]; omega)] at hl
        rw [List.getElem?_drop] at hl
        have harith : i + (mwt.length - 1) = i + mwt.length - 1 := by omega
        rw [harith] at hl
        exact hl
      refine ⟨hm1, hm2, by rw [hm3, hr1], ?_, by simpa using hres, mwt.length, tf, tl,
        hnpos, hnles, hfi, hli, hr1, hr2, rfl⟩
      intro hre
      rw [hm4 hre, hr2]
    · simp at h

/-! ## Geometry of recorded ranges -/

theorem rangesOverlap_eq_true_iff (s e rs re : Nat) (hse : s < e) (hr : rs < re) :
    rangesOverlap s e ⟨rs, re⟩ = true ↔ (rs < e ∧ s < re) := by
  simp only [rangesOverlap, Bool.or_eq_true, Bool.and_eq_true, decide_eq_true_eq]
  omega

theorem wt_get_lt (s : Str) (k : Nat) (t : Token)
    (h : (getWordTokens (tokenize s))[k]? = some t) : t.start < t.stop :=
  getWordTokens_start_lt_stop s t (List.getElem?_mem h)

theorem wt_get_ordered (s : Str) (a b : Nat) (ta tb : Token) (hab : a < b)
    (ha : (getWordTokens (tokenize s))[a]? = some ta)
    (hb : (getWordTokens (tokenize s))[b]? = some tb) : ta.stop ≤ tb.start := by
  have hpw := getWordTokens_pairwise s
  rw [List.pairwise_iff_get] at hpw
  obtain ⟨ha', hga⟩ := List.getElem?_eq_some.mp ha
  obtain ⟨hb', hgb⟩ := List.getElem?_eq_some.mp hb
  have := hpw ⟨a, ha'⟩ ⟨b, hb'⟩ hab
  simp only [List.get_eq_getElem] at this
  rw [hga, hgb] at this
  exact this

theorem wt_span_pos (s : Str) (i n : Nat) (tf tl : Token) (hn : 0 < n)
    (hf : (getWordTokens (tokenize s))[i]? = some tf)
    (hl : (getWordTokens (tokenize s))[i + n - 1]? = some tl) : tf.start < tl.stop := by
  by_cases h1 : n = 1
  · subst h1
    simp at hl
    rw [hf] at hl
    cases hl
    exact wt_get_lt s i tf hf
  · have hlt : i < i + n - 1 := by omega
    have hord := wt_get_ordered s i (i + n - 1) tf tl hlt hf hl
    have h2 := wt_get_lt s i tf hf
    have h3 := wt_get_lt s (i + n - 1) tl hl
    omega

/-- Word-level occurrences of phrases with disjoint vocabularies cannot
share a word token. -/
theorem segs_no_common_index (s : Str) (ws1 ws2 : List Str)
    (hdisj : ∀ w ∈ ws1, w ∉ ws2) (i j k : Nat)
    (h1 : segAtB (getWordTokens (tokenize s)) i ws1 = true)
    (h2 : segAtB (getWordTokens (tokenize s)) j ws2 = true)
    (hk1 : i ≤ k) (hk1' : k < i + ws1.length)
    (hk2 : j ≤ k) (hk2' : k < j + ws2.length) : False := by
  obtain ⟨t, ht, hmem1⟩ := segAtB_mem _ ws1 i h1 k hk1 hk1'
  obtain ⟨t', ht', hmem2⟩ := segAtB_mem _ ws2 j h2 k hk2 hk2'
  rw [ht] at ht'
  cases ht'
  exact hdisj _ hmem1 hmem2

/-- Index-disjoint word spans have non-overlapping text ranges. -/
theorem segs_rangesOverlap_false_of_idx (s : Str) (L1 L2 i j : Nat)
    (hidx : i + L1 ≤ j ∨ j + L2 ≤ i)
    (hL1 : 0 < L1) (hL2 : 0 < L2)
    (tf1 tl1 tf2 tl2 : Token)
    (hf1 : (getWordTokens (tokenize s))[i]? = some tf1)
    (hl1 : (getWordTokens (tokenize s))[i + L1 - 1]? = some tl1)
    (hf2 : (getWordTokens (tokenize s))[j]? = some tf2)
    (hl2 : (getWordTokens (tokenize s))[j + L2 - 1]? = some tl2) :
    rangesOverlap tf1.start tl1.stop ⟨tf2.start, tl2.stop⟩ = false := by
  have hse : tf1.start < tl1.stop := wt_span_pos s i L1 tf1 tl1 hL1 hf1 hl1
  have hre : tf2.start < tl2.stop := wt_span_pos s j L2 tf2 tl2 hL2 hf2 hl2
  rw [← Bool.not_eq_true]
  rw [rangesOverlap_eq_true_iff _ _ _ _ hse hre]
  rcases hidx with hij | hji
  · have hord : tl1.stop ≤ tf2.start :=
      wt_get_ordered s (i + L1 - 1) j tl1 tf2 (by omega) hl1 hf2
    omega
  · have hord : tl2.stop ≤ tf1.start :=
      wt_get_ordered s (j + L2 - 1) i tl2 tf1 (by omega) hl2 hf1
    omega

/-- The recorded ranges of occurrences of vocabulary-disjoint phrases
never satisfy the matcher's overlap test. -/
theorem segs_rangesOverlap_false (s : Str) (ws1 ws2 : List Str)
    (hdisj : ∀ w ∈ ws1, w ∉ ws2) (i j : Nat)
    (h1 : segAtB (getWordTokens (tokenize s)) i ws1 = true)
    (h2 : segAtB (getWordTokens (tokenize s)) j ws2 = true)
    (hn1 : ws1 ≠ []) (hn2 : ws2 ≠ [])
    (tf1 tl1 tf2 tl2 : Token)
    (hf1 : (getWordTokens (tokenize s))[i]? = some tf1)
    (hl1 : (getWordTokens (tokenize s))[i + ws1.length - 1]? = some tl1)
    (hf2 : (getWordTokens (tokenize s))[j]? = some tf2)
    (hl2 : (getWordTokens (tokenize s))[j + ws2.length - 1]? = some tl2) :
    rangesOverlap tf1.start tl1.stop ⟨tf2.start, tl2.stop⟩ = false := by
  have hL1 : 0 < ws1.length := List.length_pos.mpr hn1
  have hL2 : 0 < ws2.length := List.length_pos.mpr hn2
  have hidx : i + ws1.length ≤ j ∨ j + ws2.length ≤ i := by
    by_contra hcon
    push_neg at hcon
    exact segs_no_common_index s ws1 ws2 hdisj i j (max i j) h1 h2
      (Nat.le_max_left _ _) (by omega) (Nat.le_max_right _ _) (by omega)
  exact segs_rangesOverlap_false_of_idx s ws1.length ws2.length i j hidx hL1 hL2
    tf1 tl1 tf2 tl2 hf1 hl1 hf2 hl2

/-- Successful attempts of a rule whose pattern has no optional tokens
sit exactly on a word-level occurrence of the pattern, and the recorded
range runs from the occurrence's first token start to its last token
end. -/
theorem attemptRuleAt_some_nonopt (text : Str) (allT wt : List Token) (rule : TokenRule)
    (i : Nat) (m : RuleMatch) (r : UsedRange)
    (hopt : ∀ p ∈ rule.pattern, p.optional = false)
    (h : attemptRuleAt text allT wt rule i = some (m, r)) :
    segAtB wt i (rule.pattern.map TokenPattern.text) = true ∧
    rule.pattern ≠ [] ∧
    ∃ tf tl, wt[i]? = some tf ∧
      wt[i + (rule.pattern.map TokenPattern.text).length - 1]? = some tl ∧
      r.start = tf.start ∧ r.stop = tl.stop := by
  obtain ⟨-, -, -, -, hmp, n, tf, tl, hnpos, hnle, hfi, hli, hrs, hre, hndef⟩ :=
    attemptRuleAt_some_fields text allT wt rule i m r h
  obtain ⟨hend, hseg⟩ := matchesPattern_nonopt_forward wt rule.pattern i hopt hmp
  have hLpos : 0 < rule.pattern.length := by
    by_contra hz
    have hL0 : rule.pattern.length = 0 := by omega
    rw [hend, hL0] at hnle
    omega
  have hne : rule.pattern ≠ [] := by
    intro hnil
    rw [hnil] at hLpos
    simp at hLpos
  have hbound : i + rule.pattern.length - 1 < wt.length := by
    obtain ⟨t, ht, -⟩ := segAtB_get wt (rule.pattern.map TokenPattern.text) i hseg
      (i + rule.pattern.length - 1) (by omega)
      (by rw [List.length_map]; omega)
    have := List.getElem?_eq_some.mp ht
    exact this.1
  have hnL : n = rule.pattern.length := by
    rw [hndef, List.length_take, List.length_drop, hend]
    omega
  rw [hnL] at hli
  refine ⟨hseg, hne, tf, tl, hfi, ?_, hrs, hre⟩
  rw [List.length_map]
  exact hli

theorem wt_le_start (s : Str) (a b : Nat) (ta tb : Token) (hab : a ≤ b)
    (ha : (getWordTokens (tokenize s))[a]? = some ta)
    (hb : (getWordTokens (tokenize s))[b]? = some tb) : ta.start ≤ tb.start := by
  by_cases h : a = b
  · subst h
    rw [ha] at hb
    cases hb
    exact le_refl _
  · have hord := wt_get_ordered s a b ta tb (by omega) ha hb
    have := wt_get_lt s a ta ha
    omega

theorem wt_stop_le (s : Str) (a b : Nat) (ta tb : Token) (hab : a ≤ b)
    (ha : (getWordTokens (tokenize s))[a]? = some ta)
    (hb : (getWordTokens (tokenize s))[b]? = some tb) : ta.stop ≤ tb.stop := by
  by_cases h : a = b
  · subst h
    rw [ha] at hb
    cases hb
    exact le_refl _
  · have hord := wt_get_ordered s a b ta tb (by omega) ha hb
    have := wt_get_lt s b tb hb
    omega

/-- Two occurrences of the same duplicate-free phrase at distinct word
indices are index-disjoint. -/
theorem same_seg_disjoint_idx (s : Str) (ws : List Str) (hnodup : ws.Nodup)
    (i j : Nat) (hne : i ≠ j)
    (h1 : segAtB (getWordTokens (tokenize s)) i ws = true)
    (h2 : segAtB (getWordTokens (tokenize s)) j ws = true) :
    i + ws.length ≤ j ∨ j + ws.length ≤ i := by
  by_contra hcon
  push_neg at hcon
  set k := max i j with hk
  obtain ⟨t, ht, hw1⟩ := segAtB_get _ ws i h1 k (Nat.le_max_left _ _) (by omega)
  obtain ⟨t', ht', hw2⟩ := segAtB_get _ ws j h2 k (Nat.le_max_right _ _) (by omega)
  rw [ht] at ht'
  cases ht'
  obtain ⟨hlt1, hg1⟩ := List.getElem?_eq_some.mp hw1
  obtain ⟨hlt2, hg2⟩ := List.getElem?_eq_some.mp hw2
  have heq : k - i = k - j := (List.Nodup.getElem_inj_iff hnodup).mp (by rw [hg1, hg2])
  omega

/-- The recorded ranges of two occurrences sharing a word token satisfy
the matcher's overlap test. -/
theorem segs_rangesOverlap_true_of_common (s : Str) (ws1 ws2 : List Str) (i j k : Nat)
    (h1 : segAtB (getWordTokens (tokenize s)) i ws1 = true)
    (_h2 : segAtB (getWordTokens (tokenize s)) j ws2 = true)
    (hk1 : i ≤ k) (hk1' : k < i + ws1.length)
    (hk2 : j ≤ k) (hk2' : k < j + ws2.length)
    (tf1 tl1 tf2 tl2 : Token)
    (hf1 : (getWordTokens (tokenize s))[i]? = some tf1)
    (hl1 : (getWordTokens (tokenize s))[i + ws1.length - 1]? = some tl1)
    (hf2 : (getWordTokens (tokenize s))[j]? = some tf2)
    (hl2 : (getWordTokens (tokenize s))[j + ws2.length - 1]? = some tl2) :
    rangesOverlap tf1.start tl1.stop ⟨tf2.start, tl2.stop⟩ = true := by
  obtain ⟨tk, htk, -⟩ := segAtB_get _ ws1 i h1 k hk1 hk1'
  have hklt := wt_get_lt s k tk htk
  have ha1 : tf1.start ≤ tk.start := wt_le_start s i k tf1 tk hk1 hf1 htk
  have hb1 : tk.stop ≤ tl1.stop := wt_stop_le s k (i + ws1.length - 1) tk tl1 (by omega) htk hl1
  have ha2 : tf2.start ≤ tk.start := wt_le_start s j k tf2 tk hk2 hf2 htk
  have hb2 : tk.stop ≤ tl2.stop := wt_stop_le s k (j + ws2.length - 1) tk tl2 (by omega) htk hl2
  have hse : tf1.start < tl1.stop := by omega
  have hre : tf2.start < tl2.stop := by omega
  rw [rangesOverlap_eq_true_iff _ _ _ _ hse hre]
  omega

/-- Every pair a scan accepts passed the overlap test against the
initial `usedRanges`. -/
theorem scanDeltas_accepted_no_overlap (text : Str) (allTokens wordTokens : List Token)
    (rule : TokenRule) :
    ∀ ps U m r, (m, r) ∈ scanDeltas text allTokens wordTokens rule ps U →
      ∀ u ∈ U, rangesOverlap r.start r.stop u = false := by
  intro ps
  induction ps with
  | nil => intro U m r h; simp [scanDeltas] at h
  | cons i rest ih =>
    intro U m r h
    rw [scanDeltas] at h
    split at h
    · exact ih U m r h
    · rename_i m' r' ha
      split at h
      · exact ih U m r h
      · rename_i hov
        rcases List.mem_cons.mp h with heq | hm
        · cases heq
          intro u hu
          have := List.any_eq_false.mp (Bool.eq_false_iff.mpr hov) u hu
          exact Bool.eq_false_iff.mpr this
        · intro u hu
          exact ih (U ++ [r']) m r hm u (List.mem_append_left _ hu)

theorem scanDeltas_cons_none (text : Str) (allTokens wordTokens : List Token)
    (rule : TokenRule) (i : Nat) (rest : List Nat) (U : List UsedRange)
    (ha : attemptRuleAt text allTokens wordTokens rule i = none) :
    scanDeltas text allTokens wordTokens rule (i :: rest) U =
      scanDeltas text allTokens wordTokens rule rest U := by
  rw [scanDeltas, ha]

theorem scanDeltas_cons_some (text : Str) (allTokens wordTokens : List Token)
    (rule : TokenRule) (i : Nat) (rest : List Nat) (U : List UsedRange)
    (m : RuleMatch) (r : UsedRange)
    (ha : attemptRuleAt text allTokens wordTokens rule i = some (m, r))
    (hov : U.any (rangesOverlap r.start r.stop) = false) :
    scanDeltas text allTokens wordTokens rule (i :: rest) U =
      (m, r) :: scanDeltas text allTokens wordTokens rule rest (U ++ [r]) := by
  rw [scanDeltas, ha]
  simp [hov]

theorem scanDeltas_cons_blocked (text : Str) (allTokens wordTokens : List Token)
    (rule : TokenRule) (i : Nat) (rest : List Nat) (U : List UsedRange)
    (m : RuleMatch) (r : UsedRange)
    (ha : attemptRuleAt text allTokens wordTokens rule i = some (m, r))
    (hov : U.any (rangesOverlap r.start r.stop) = true) :
    scanDeltas text allTokens wordTokens rule (i :: rest) U =
      scanDeltas text allTokens wordTokens rule rest U := by
  rw [scanDeltas, ha]
  simp [hov]

/-- A word-level occurrence of a constraint-free, all-mandatory pattern
always yields a successful attempt. -/
theorem attemptRuleAt_isSome_of_seg (text : Str) (allT wt : List Token) (rule : TokenRule)
    (i : Nat)
    (hopt : ∀ p ∈ rule.pattern, p.optional = false)
    (hcons : rule.constraint = none)
    (hne : rule.pattern ≠ [])
    (hseg : segAtB wt i (rule.pattern.map TokenPattern.text) = true) :
    ∃ m r, attemptRuleAt text allT wt rule i = some (m, r) := by
  have hL : 0 < rule.pattern.length := List.length_pos.mpr hne
  have hmp := matchesPattern_nonopt_backward wt rule.pattern i hopt hseg
  obtain ⟨tf, htf, -⟩ := segAtB_get wt _ i hseg i (le_refl _)
    (by rw [List.length_map]; omega)
  obtain ⟨tl, htl, -⟩ := segAtB_get wt _ i hseg (i + rule.pattern.length - 1) (by omega)
    (by rw [List.length_map]; omega)
  have hbound : i + rule.pattern.length - 1 < wt.length := (List.getElem?_eq_some.mp htl).1
  unfold attemptRuleAt
  rw [hmp]
  dsimp only
  rw [if_neg (by simp)]
  have hsub : i + rule.pattern.length - i = rule.pattern.length := by omega
  rw [hsub]
  have hhead : ((wt.drop i).take rule.pattern.length).head? = some tf := by
    rw [take_head _ hL, List.head?_drop]
    exact htf
  have hlast : ((wt.drop i).take rule.pattern.length).getLast? = some tl := by
    have hlen : ((wt.drop i).take rule.pattern.length).length = rule.pattern.length := by
      rw [List.length_take, List.length_drop]
      omega
    rw [List.getLast?_eq_getElem? _, hlen, List.getElem?_take, if_pos (by omega),
      List.getElem?_drop]
    have harith : i + (rule.pattern.length - 1) = i + rule.pattern.length - 1 := by omega
    rw [harith]
    exact htl
  rw [hhead, hlast]
  show ∃ m r, attemptCore text allT rule i (i + rule.pattern.length) tf tl = some (m, r)
  unfold attemptCore
  rw [if_neg (fun hn => hn (by simp [constraintOkFor, hcons]))]
  exact ⟨_, _, rfl⟩

/-- A scan of a constraint-free rule with a duplicate-free, all-mandatory
pattern accepts every occurrence of the pattern, as long as the initial
`usedRanges` hold only ranges of other occurrences of the same
pattern. -/
theorem scanDeltas_accepts (text : Str) (rule : TokenRule)
    (hopt : ∀ p ∈ rule.pattern, p.optional = false)
    (hcons : rule.constraint = none)
    (hnodup : (rule.pattern.map TokenPattern.text).Nodup)
    (hne : rule.pattern ≠ [])
    (i : Nat)
    (hseg : segAtB (getWordTokens (tokenize text)) i
      (rule.pattern.map TokenPattern.text) = true) :
    ∀ ps U, i ∈ ps →
      (∀ u ∈ U, ∃ j tfj tlj,
          segAtB (getWordTokens (tokenize text)) j (rule.pattern.map TokenPattern.text) = true ∧
          j ≠ i ∧ (getWordTokens (tokenize text))[j]? = some tfj ∧
          (getWordTokens (tokenize text))[j + (rule.pattern.map TokenPattern.text).length - 1]?
            = some tlj ∧
          u = ⟨tfj.start, tlj.stop⟩) →
      ∃ m r,
        (m, r) ∈ scanDeltas text (tokenize text) (getWordTokens (tokenize text)) rule ps U ∧
        m.tokenStart = i ∧ m.rule = rule := by
  have hLpos : 0 < (rule.pattern.map TokenPattern.text).length := by
    rw [List.length_map]
    exact List.length_pos.mpr hne
  intro ps
  induction ps with
  | nil => intro U hip _; simp at hip
  | cons p rest ih =>
    intro U hip hU
    by_cases hpi : p = i
    · subst hpi
      obtain ⟨m, r, hsome⟩ :=
        attemptRuleAt_isSome_of_seg text (tokenize text) (getWordTokens (tokenize text))
          rule p hopt hcons hne hseg
      obtain ⟨hsg, -, tf, tl, htf, htl, hrs, hre⟩ :=
        attemptRuleAt_some_nonopt text (tokenize text) (getWordTokens (tokenize text))
          rule p m r hopt hsome
      have hovF : U.any (rangesOverlap r.start r.stop) = false := by
        apply List.any_eq_false.mpr
        intro u hu
        obtain ⟨j, tfj, tlj, hsegj, hji, htfj, htlj, hu2⟩ := hU u hu
        have hidx := same_seg_disjoint_idx text (rule.pattern.map TokenPattern.text) hnodup
          p j (fun he => hji (he.symm)) hseg hsegj
        rw [hrs, hre, hu2]
        simp only [ne_eq]
        rw [segs_rangesOverlap_false_of_idx text
          (rule.pattern.map TokenPattern.text).length
          (rule.pattern.map TokenPattern.text).length p j hidx hLpos hLpos
          tf tl tfj tlj htf htl htfj htlj]
        simp
      rw [scanDeltas_cons_some _ _ _ _ _ _ _ _ _ hsome hovF]
      obtain ⟨hm1, hm2, -⟩ := attemptRuleAt_some_fields _ _ _ _ _ _ _ hsome
      exact ⟨m, r, List.mem_cons_self _ _, hm2, hm1⟩
    · have hirest : i ∈ rest := by
        rcases List.mem_cons.mp hip with h1 | h2
        · exact absurd h1.symm hpi
        · exact h2
      cases hap : attemptRuleAt text (tokenize text) (getWordTokens (tokenize text)) rule p with
      | none =>
        rw [scanDeltas_cons_none _ _ _ _ _ _ _ hap]
        exact ih U hirest hU
      | some mr =>
        obtain ⟨m', r'⟩ := mr
        cases hov : U.any (rangesOverlap r'.start r'.stop) with
        | true =>
          rw [scanDeltas_cons_blocked _ _ _ _ _ _ _ _ _ hap hov]
          exact ih U hirest hU
        | false =>
          rw [scanDeltas_cons_some _ _ _ _ _ _ _ _ _ hap hov]
          obtain ⟨hsgp, -, tfp, tlp, htfp, htlp, hrsp, hrep⟩ :=
            attemptRuleAt_some_nonopt text (tokenize text) (getWordTokens (tokenize text))
              rule p m' r' hopt hap
          have hU' : ∀ u ∈ U ++ [r'], ∃ j tfj tlj,
              segAtB (getWordTokens (tokenize text)) j
                (rule.pattern.map TokenPattern.text) = true ∧
              j ≠ i ∧ (getWordTokens (tokenize text))[j]? = some tfj ∧
              (getWordTokens (tokenize text))[j +
                (rule.pattern.map TokenPattern.text).length - 1]? = some tlj ∧
              u = ⟨tfj.start, tlj.stop⟩ := by
            intro u hu
            rcases List.mem_append.mp hu with hold | hnew
            · exact hU u hold
            · simp at hnew
              refine ⟨p, tfp, tlp, hsgp, hpi, htfp, htlp, ?_⟩
              rw [hnew]
              have hu : r' = (⟨r'.start, r'.stop⟩ : UsedRange) := rfl
              rw [hu, hrsp, hrep]
          obtain ⟨m, r, hmem, hf1, hf2⟩ := ih (U ++ [r']) hirest hU'
          exact ⟨m, r, List.mem_cons_of_mem _ hmem, hf1, hf2⟩

/-! ## Claim C2 -/

/-- C2: for every string `s`, concatenating the text fields of
`tokenize s` in order yields exactly `s`, and the token list is
contiguous and non-overlapping: each token covers exactly its text
(`stop = start + |text|`) and ends where the next token starts. -/
theorem C2_tokenize_lossless_contiguous (s : Str) :
    tokensToText (tokenize s) = s ∧
    List.Chain' (fun a b => a.stop = b.start) (tokenize s) ∧
    ∀ t ∈ tokenize s, t.stop = t.start + t.text.length :=
  ⟨tokenizeAux_text s.length 0 s (le_refl _),
   (tokenize_facts s).2.1,
   fun t ht => ((tokenize_facts s).1 t ht).2.1⟩

/-! ## Claim C9 -/

theorem processRules_nil_tokens (text : Str) (allTokens : List Token) :
    ∀ rules st, processRules text allTokens [] rules st = st := by
  intro rules
  induction rules with
  | nil => intro st; rfl
  | cons r rs ih =>
    intro st
    rw [processRules]
    have hscan : scanRule text allTokens [] st r = st := rfl
    rw [hscan]
    exact ih st

theorem findMatches_empty_text (rules : List TokenRule) : findMatches [] rules = [] := by
  show sortMatchesByTextStart
      (processRules [] [] [] (sortRulesByPatternLength rules) ⟨[], []⟩).matchList = []
  rw [processRules_nil_tokens]
  rfl

/-- C9: for every strictness level, `processText` on the empty string
returns an empty transformed string and empty replacement and suggestion
lists (the pipeline is total, so no error can occur). -/
theorem C9_empty_input (level : StrictnessLevel) :
    processText [] level =
      { original := [], transformed := [], replacements := [], suggestions := [] } := by
  cases level <;> decide

/-! ## Claim C1 -/

/-- C1: refuted on the code.  `findMatches` records only the
pre-restructure range `[textStart, textEnd)` in `usedRanges`, while the
returned match carries the extended `actualTextEnd`; a later rule
matching the swallowed pronoun is therefore accepted inside the extended
span.  On `"would you mind if i go"` with the restructuring rule and a
rule for the single word `"i"`, `findMatches` returns matches with
ranges `[0, 19)` and `[18, 19)`, which intersect. -/
theorem C1_overlap_bug_demo :
    (findMatches demoOverlapText [demoRestructureRule, demoSubjectRule]).map
        (fun m => (m.textStart, m.textEnd)) = [(0, 19), (18, 19)] ∧
    spansIntersect (0, 19) (18, 19) := by
  constructor
  · decide
  · exact ⟨by omega, by omega⟩

/-! ## Claim C5 -/

/-- C5 counterexample: the claim states that a first matched word that is
a single non-letter leaves the replacement unchanged; in the code a
single non-letter such as `"5"` passes the `isCapitalized` test
(`'5' === '5'.toUpperCase()` and the word has length one), so the
replacement is capitalized instead of passed through. -/
theorem C5_counterexample :
    preserveCase (str "5") (str "ABC") = str "Abc" ∧
    str "Abc" ≠ str "ABC" ∧
    classifyWord (str "5") = .capitalized := by
  refine ⟨by decide, by decide, by decide⟩

/-- C5 (amended): the replacement casing is classify-then-apply with the
three classes tested in order (ALL-UPPER, all-lower, Capitalized) and a
pass-through for words fitting no class — where the Capitalized test is
`firstWord[0] = toUpper firstWord[0]` (true for any non-letter first
character) together with a lowercase remainder, so a single non-letter
is classified Capitalized rather than passed through; pass-through
happens e.g. for mixed-case words such as `"aB"`. -/
theorem C5_preserveCase_classified (original replacement : Str) :
    preserveCase original replacement = specPreserveCase original replacement := by
  simp only [preserveCase, specPreserveCase, classifyWord]
  split_ifs <;> rfl

/-! ## Claim C4 -/

/-- C4 counterexample: with only the suggestion rule for
`"in my opinion"` active, processing `"in my opinion x"` yields the
suggestion but the cleanup pass uppercases the first character, so the
matched phrase's exact original text does not appear in the transformed
output. -/
theorem C4_counterexample :
    (processText (str "in my opinion x") .aggressive).suggestions.map
        (fun m => (m.original, m.replacement)) = [(str "in my opinion", none)] ∧
    (processText (str "in my opinion x") .aggressive).transformed = str "In my opinion x" ∧
    containsSubstr (processText (str "in my opinion x") .aggressive).transformed
      (str "in my opinion") = false := by
  refine ⟨by decide, by decide, by decide⟩

/-- C4 (amended): suggestion matches are never substituted into the
output — when every match of a rule list is suggestion-only, the
transformed text is exactly `cleanupText` of the original (no splice
happens), and the applied-match list is empty; the matched phrase is
altered at most by the global cleanup normalisation, which applies
whether or not the suggestion exists. -/
theorem C4_suggestions_never_substituted (text : Str) (rules : List TokenRule)
    (h : ∀ m ∈ findMatches text rules, m.rule.replacement = none) :
    (processWithRules text rules).transformed = cleanupText text ∧
    (processWithRules text rules).matchList = [] := by
  have hfilter : (findMatches text rules).filter (fun m => m.rule.replacement ≠ none) = [] := by
    rw [List.filter_eq_nil_iff]
    intro m hm
    simp [h m hm]
  constructor
  · show applyMatches text ((findMatches text rules).filter (fun m => m.rule.replacement ≠ none)) =
      cleanupText text
    rw [hfilter]
    rfl
  · show (findMatches text rules).filter (fun m => m.rule.replacement ≠ none) = []
    exact hfilter

/-- C4 witness: the amended theorem applied to the concrete suggestion
scenario. -/
theorem C4_suggestions_never_substituted_witness :
    (processWithRules (str "in my opinion x") (getApplicableTokenRules .aggressive)).transformed =
        cleanupText (str "in my opinion x") ∧
    (processWithRules (str "in my opinion x") (getApplicableTokenRules .aggressive)).matchList = [] :=
  C4_suggestions_never_substituted (str "in my opinion x") (getApplicableTokenRules .aggressive)
    (by decide)

/-! ## Claim C7 -/

theorem toNat_ofNat_valid (n : Nat) (h : n.isValidChar) : (Char.ofNat n).toNat = n := by
  unfold Char.ofNat
  rw [dif_pos h]
  unfold Char.ofNatAux Char.toNat
  simp [UInt32.toNat]

theorem toUpper_ne_nl (c : Char) (h : c ≠ '\n') : c.toUpper ≠ '\n' := by
  intro hc
  unfold Char.toUpper at hc
  simp only [] at hc
  by_cases hl : c.toNat ≥ 97 ∧ c.toNat ≤ 122
  · rw [if_pos hl] at hc
    have hv : (c.toNat - 32).isValidChar := by
      unfold Nat.isValidChar
      left
      omega
    have h2 : (Char.ofNat (c.toNat - 32)).toNat = c.toNat - 32 := toNat_ofNat_valid _ hv
    rw [hc] at h2
    have h10 : ('\n').toNat = 10 := rfl
    omega
  · rw [if_neg hl] at hc
    exact h hc

theorem splitOnNl_ne_nil (s : Str) : splitOnNl s ≠ [] := by
  cases s with
  | nil => simp [splitOnNl]
  | cons c rest =>
    rw [splitOnNl]
    split <;> simp

theorem mem_splitOnNl_no_nl (s : Str) : ∀ seg ∈ splitOnNl s, '\n' ∉ seg := by
  induction s with
  | nil =>
    intro seg hseg
    simp [splitOnNl] at hseg
    subst hseg
    simp
  | cons c rest ih =>
    intro seg hseg
    rw [splitOnNl] at hseg
    by_cases hc : c = '\n'
    · rw [if_pos hc] at hseg
      rcases List.mem_cons.mp hseg with rfl | hm
      · simp
      · exact ih seg hm
    · rw [if_neg hc] at hseg
      rcases List.mem_cons.mp hseg with rfl | hm
      · intro hmem
        rcases List.mem_cons.mp hmem with h1 | h2
        · exact hc h1.symm
        · cases hl : splitOnNl rest with
          | nil => rw [hl] at h2; simp at h2
          | cons l0 ls0 =>
            rw [hl] at h2
            simp at h2
            exact ih l0 (by rw [hl]; exact List.mem_cons_self _ _) h2
      · exact ih seg (List.mem_of_mem_tail hm)

theorem count_nl_splitOnNl (s : Str) : s.count '\n' + 1 = (splitOnNl s).length := by
  induction s with
  | nil => simp [splitOnNl]
  | cons c rest ih =>
    rw [splitOnNl]
    by_cases hc : c = '\n'
    · rw [if_pos hc]
      subst hc
      simp only [List.count_cons, List.length_cons]
      simp at ih ⊢
      omega
    · rw [if_neg hc]
      have hbe : (c == '\n') = false := beq_eq_false_iff_ne.mpr hc
      cases hl : splitOnNl rest with
      | nil => exact absurd hl (splitOnNl_ne_nil rest)
      | cons l0 ls0 =>
        rw [hl] at ih
        simp only [List.count_cons, List.length_cons, hbe]
        simp at ih ⊢
        omega

theorem count_nl_joinNl (ls : List Str) (hne : ls ≠ []) (h : ∀ seg ∈ ls, '\n' ∉ seg) :
    (joinNl ls).count '\n' + 1 = ls.length := by
  induction ls with
  | nil => contradiction
  | cons l ls ih =>
    cases ls with
    | nil =>
      rw [joinNl]
      have : l.count '\n' = 0 := List.count_eq_zero.mpr (h l (List.mem_cons_self _ _))
      simp [this]
    | cons l1 ls1 =>
      have hj : joinNl (l :: l1 :: ls1) = l ++ '\n' :: joinNl (l1 :: ls1) := rfl
      rw [hj]
      have h0 : l.count '\n' = 0 := List.count_eq_zero.mpr (h l (List.mem_cons_self _ _))
      have ih' := ih (List.cons_ne_nil _ _) (fun seg hseg => h seg (List.mem_cons_of_mem _ hseg))
      simp only [List.count_append, List.count_cons, List.length_cons] at ih' ⊢
      simp [h0] at ih' ⊢
      omega

theorem collapseSpacesAux_no_nl (l : Str) :
    ∀ b, '\n' ∉ l → '\n' ∉ collapseSpacesAux b l := by
  induction l with
  | nil => intro b _; simp [collapseSpacesAux]
  | cons c rest ih =>
    intro b h
    have hrest : '\n' ∉ rest := fun hm => h (List.mem_cons_of_mem _ hm)
    have hc : c ≠ '\n' := fun he => h (he ▸ List.mem_cons_self _ _)
    rw [collapseSpacesAux]
    by_cases hsp : c = ' '
    · rw [if_pos hsp]
      by_cases hb : b
      · rw [if_pos hb]; exact ih true hrest
      · rw [if_neg hb]
        intro hm
        rcases List.mem_cons.mp hm with h1 | h2
        · simp at h1
        · exact ih true hrest h2
    · rw [if_neg hsp]
      intro hm
      rcases List.mem_cons.mp hm with h1 | h2
      · exact hc h1.symm
      · exact ih false hrest h2

theorem stripWsBeforePunctAux_no_nl (l : Str) :
    ∀ pending, '\n' ∉ pending → '\n' ∉ l → '\n' ∉ stripWsBeforePunctAux pending l := by
  induction l with
  | nil => intro pending hp _; simpa [stripWsBeforePunctAux] using hp
  | cons c rest ih =>
    intro pending hp h
    have hrest : '\n' ∉ rest := fun hm => h (List.mem_cons_of_mem _ hm)
    have hc : c ≠ '\n' := fun he => h (he ▸ List.mem_cons_self _ _)
    rw [stripWsBeforePunctAux]
    by_cases hws : jsIsSpace c
    · rw [if_pos hws]
      refine ih (pending ++ [c]) ?_ hrest
      intro hm
      rcases List.mem_append.mp hm with h1 | h2
      · exact hp h1
      · simp at h2; exact hc h2.symm
    · rw [if_neg hws]
      by_cases hpu : isCleanupPunct c
      · rw [if_pos hpu]
        intro hm
        rcases List.mem_cons.mp hm with h1 | h2
        · exact hc h1.symm
        · exact ih [] (by simp) hrest h2
      · rw [if_neg hpu]
        intro hm
        rcases List.mem_append.mp hm with h1 | h2
        · exact hp h1
        · rcases List.mem_cons.mp h2 with h3 | h4
          · exact hc h3.symm
          · exact ih [] (by simp) hrest h4

theorem trimLeadingSpaces_no_nl (l : Str) (h : '\n' ∉ l) : '\n' ∉ trimLeadingSpaces l :=
  fun hm => h ((List.dropWhile_sublist _).mem hm)

theorem trimTrailingSpaces_no_nl (l : Str) (h : '\n' ∉ l) : '\n' ∉ trimTrailingSpaces l := by
  intro hm
  unfold trimTrailingSpaces at hm
  rw [List.mem_reverse] at hm
  exact h (List.mem_reverse.mp ((List.dropWhile_sublist _).mem hm))

theorem count_sentenceCapAux (l : Str) :
    ∀ b pending, (sentenceCapAux b pending l).count '\n' = pending.count '\n' + l.count '\n' := by
  induction l with
  | nil => intro b pending; rw [sentenceCapAux]; simp
  | cons c rest ih =>
    intro b pending
    rw [sentenceCapAux]
    by_cases hws : jsIsSpace c
    · rw [if_pos hws, ih]
      simp only [List.count_append, List.count_cons]
      simp
      omega
    · rw [if_neg hws]
      have hc : c ≠ '\n' := by
        intro he
        rw [he] at hws
        exact hws (by decide)
      have hbe : (c == '\n') = false := beq_eq_false_iff_ne.mpr hc
      by_cases hcond : b = true ∧ pending ≠ [] ∧ isAsciiLower c = true
      · rw [if_pos hcond]
        have hup : c.toUpper ≠ '\n' := toUpper_ne_nl c hc
        have hbu : (c.toUpper == '\n') = false := beq_eq_false_iff_ne.mpr hup
        simp only [List.count_append, List.count_cons, hbu, hbe, ih]
        simp
      · rw [if_neg hcond]
        simp only [List.count_append, List.count_cons, hbe, ih]
        simp

theorem count_upperFirstNonWs (l : Str) : (upperFirstNonWs l).count '\n' = l.count '\n' := by
  induction l with
  | nil => rfl
  | cons c rest ih =>
    rw [upperFirstNonWs]
    by_cases hws : jsIsSpace c
    · rw [if_pos hws]
      simp only [List.count_cons, ih]
    · rw [if_neg hws]
      have hc : c ≠ '\n' := by
        intro he
        rw [he] at hws
        exact hws (by decide)
      have hbe : (c == '\n') = false := beq_eq_false_iff_ne.mpr hc
      have hbu : (c.toUpper == '\n') = false := beq_eq_false_iff_ne.mpr (toUpper_ne_nl c hc)
      simp only [List.count_cons, hbe, hbu]

/-- C7 counterexample: the punctuation-spacing step uses `\s+`, which
includes tabs, so the tab of `"ab\t."` is removed by cleanup — the claim
that every tab survives cleanup unchanged is false. -/
theorem C7_counterexample :
    cleanupText (str "ab\t.") = str "Ab." ∧
    (str "ab\t.").count '\t' = 1 ∧
    (cleanupText (str "ab\t.")).count '\t' = 0 := by
  refine ⟨by decide, by decide, by decide⟩

/-- C7 (amended): cleanup never removes or alters newline characters —
it splits on newlines, cleans each line (whose segments contain no
newline), rejoins with the same newlines, and the capitalization passes
only uppercase non-newline characters — so the newline count of the
output equals that of the input.  Tabs survive space-collapsing and
per-line trimming, but a tab (or other non-newline whitespace)
immediately preceding one of `. , ! ? ; :` is removed by the
punctuation-spacing step, as the counterexample shows. -/
theorem C7_cleanup_preserves_newlines (t : Str) :
    (cleanupText t).count '\n' = t.count '\n' := by
  unfold cleanupText
  rw [count_upperFirstNonWs]
  unfold sentenceCap
  rw [count_sentenceCapAux]
  have hclean : ∀ seg ∈ (splitOnNl t).map (fun line =>
      trimTrailingSpaces (trimLeadingSpaces (stripWsBeforePunct (collapseSpaces line)))),
      '\n' ∉ seg := by
    intro seg hseg
    rw [List.mem_map] at hseg
    obtain ⟨line, hline, rfl⟩ := hseg
    have h0 : '\n' ∉ line := mem_splitOnNl_no_nl t line hline
    exact trimTrailingSpaces_no_nl _ (trimLeadingSpaces_no_nl _
      (stripWsBeforePunctAux_no_nl _ [] (by simp) (collapseSpacesAux_no_nl _ false h0)))
  have hne : (splitOnNl t).map (fun line =>
      trimTrailingSpaces (trimLeadingSpaces (stripWsBeforePunct (collapseSpaces line)))) ≠ [] := by
    intro hmap
    exact splitOnNl_ne_nil t (List.map_eq_nil_iff.mp hmap)
  have hj := count_nl_joinNl _ hne hclean
  have hs := count_nl_splitOnNl t
  rw [List.length_map] at hj
  simp at hj ⊢
  omega

/-! ## Claim C8 -/

/-- C8: a restructuring capture of a trailing subject extends the match
end to the pronoun token's end exactly when the first word token after
the span normalizes to one of i, we, you, he, she, it, they, and leaves
the span unchanged otherwise; concretely, `"Would you mind if I take
this?"` at moderate level is transformed to `"I'd like to take this?"`
(the span swallows `"I"`). -/
theorem C8_restructure_swallows_subject :
    (∀ (allTokens : List Token) (textStart textEnd : Nat)
        (matchedTokens afterTokens : List Token),
      ([({ name := str "subject" } : CaptureConfig)]).foldl
          (extendCapture allTokens textStart (getWordTokens afterTokens))
          (textEnd, matchedTokens) =
        match (getWordTokens afterTokens).head? with
        | some firstAfter =>
          if firstAfter.normalized ∈ SUBJECT_PRONOUNS then
            (firstAfter.stop, getTokensBetween allTokens textStart firstAfter.stop)
          else (textEnd, matchedTokens)
        | none => (textEnd, matchedTokens)) ∧
    (processText (str "Would you mind if I take this?") .moderate).transformed =
      str "I'd like to take this?" := by
  constructor
  · intro allTokens textStart textEnd matchedTokens afterTokens
    simp only [List.foldl, extendCapture]
    cases h : getWordTokens afterTokens with
    | nil => simp
    | cons f rest =>
      simp only [List.head?_cons]
      have hname : (({ name := str "subject" } : CaptureConfig)).name = str "subject" := rfl
      simp [hname]
  · decide

/-! ## Claim C10 -/

theorem insertRuleSorted_perm (r : TokenRule) (l : List TokenRule) :
    (insertRuleSorted r l).Perm (r :: l) := by
  induction l with
  | nil => exact List.Perm.refl _
  | cons x xs ih =>
    rw [insertRuleSorted]
    split
    · exact List.Perm.refl _
    · exact (ih.cons x).trans (List.Perm.swap r x xs)

theorem sortRulesByPatternLength_perm (l : List TokenRule) :
    (sortRulesByPatternLength l).Perm l := by
  induction l with
  | nil => exact List.Perm.refl _
  | cons r rs ih =>
    exact (insertRuleSorted_perm r (sortRulesByPatternLength rs)).trans (ih.cons r)

theorem tryRuleAt_preserves_inv (text : Str) (rule : TokenRule) (i : Nat) (st : FMState)
    (hre : rule.restructure = none) (h : StInv st) :
    StInv (tryRuleAt text (tokenize text) (getWordTokens (tokenize text)) rule i st) := by
  unfold tryRuleAt
  cases ha : attemptRuleAt text (tokenize text) (getWordTokens (tokenize text)) rule i with
  | none => exact h
  | some mr =>
    obtain ⟨m, r⟩ := mr
    dsimp only
    by_cases hov : st.usedRanges.any (rangesOverlap r.start r.stop) = true
    · rw [if_pos hov]
      exact h
    · rw [if_neg hov]
      obtain ⟨hm1, hm2, hm3, hm4, hmp1, n, tf, tl, hnpos, hnle, hfi, hli, hrs, hre2, hndef⟩ :=
        attemptRuleAt_some_fields text (tokenize text) (getWordTokens (tokenize text))
          rule i m r ha
      have hrlt : r.start < r.stop := by
        rw [hrs, hre2]
        exact wt_span_pos text i n tf tl hnpos hfi hli
      have hmEnd : m.textEnd = r.stop := hm4 hre
      have hmspan : m.textStart < m.textEnd := by
        rw [hm3, hmEnd]
        exact hrlt
      obtain ⟨helem, hured, hpw⟩ := h
      have hovF : ∀ u ∈ st.usedRanges, rangesOverlap r.start r.stop u = false := by
        intro u hu
        have hfa : st.usedRanges.any (rangesOverlap r.start r.stop) = false :=
          Bool.eq_false_iff.mpr hov
        exact Bool.eq_false_iff.mpr (List.any_eq_false.mp hfa u hu)
      refine ⟨?_, ?_, ?_⟩
      · intro m' hm'
        rcases List.mem_append.mp hm' with hold | hnew
        · obtain ⟨hsp, u, hu, hu2⟩ := helem m' hold
          exact ⟨hsp, u, List.mem_append_left _ hu, hu2⟩
        · simp at hnew
          subst hnew
          exact ⟨hmspan, r, List.mem_append_right _ (by simp), hm3.symm, hmEnd.symm⟩
      · intro u hu
        rcases List.mem_append.mp hu with hold | hnew
        · exact hured u hold
        · simp at hnew
          subst hnew
          exact hrlt
      · rw [List.pairwise_append]
        refine ⟨hpw, by simp, ?_⟩
        intro a ha' b hb
        simp at hb
        subst hb
        obtain ⟨hspa, u, hu, hu1, hu2⟩ := helem a ha'
        intro hint
        rcases hint with ⟨hi1, hi2⟩
        have hfu := hovF u hu
        have hover : rangesOverlap r.start r.stop u = true := by
          rw [show u = (⟨u.start, u.stop⟩ : UsedRange) from rfl]

          rw [rangesOverlap_eq_true_iff _ _ _ _ hrlt (hured u hu)]
          constructor
          · rw [hu1, ← hmEnd]
            exact hi2
          · rw [hu2, ← hm3]
            exact hi1
        rw [hfu] at hover
        exact Bool.false_ne_true hover

theorem scanPositions_preserves_inv (text : Str) (rule : TokenRule)
    (hre : rule.restructure = none) :
    ∀ ps st, StInv st →
      StInv (scanPositions text (tokenize text) (getWordTokens (tokenize text)) rule ps st) := by
  intro ps
  induction ps with
  | nil => intro st h; exact h
  | cons i rest ih =>
    intro st h
    rw [scanPositions]
    exact ih _ (tryRuleAt_preserves_inv text rule i st hre h)

theorem processRules_preserves_inv (text : Str) :
    ∀ rules st, (∀ r ∈ rules, r.restructure = none) → StInv st →
      StInv (processRules text (tokenize text) (getWordTokens (tokenize text)) rules st) := by
  intro rules
  induction rules with
  | nil => intro st _ h; exact h
  | cons r rs ih =>
    intro st hno h
    rw [processRules]
    exact ih _ (fun q hq => hno q (List.mem_cons_of_mem _ hq))
      (scanPositions_preserves_inv text r (hno r (List.mem_cons_self _ _)) _ st h)

/-- C10 (amended): an accepted suggestion-only match reserves its
pre-restructure span exactly like a replacement match.  For any rule
list without restructure configurations, no two matches of
`findMatches` — suggestions included — have intersecting
`[textStart, textEnd)` ranges, because every accepted match's span is
recorded and blocks later overlapping candidates regardless of the
rule's replacement.  Concretely, the rule `"we should" → "we will"`
alone produces a replacement match on `"i think we should go"`, and
adding the suggestion-only rule `"i think we should"` removes it: the
suggestion is accepted first and reserves the span.  (When a
restructuring capture extends a suggestion's span, only the unextended
range is reserved — see the counterexample.) -/
theorem C10_suggestions_reserve_ranges :
    (∀ (text : Str) (rules : List TokenRule), (∀ r ∈ rules, r.restructure = none) →
      List.Pairwise (fun m m' => ¬ RangesIntersect m m') (findMatches text rules)) ∧
    (processWithRules demoParityText [demoShortRule]).matchList.map
        (fun m => (m.textStart, m.textEnd)) = [(8, 17)] ∧
    (processWithRules demoParityText [demoHedgeSuggestionRule, demoShortRule]).matchList.map
        (fun m => (m.textStart, m.textEnd)) = [] ∧
    (processWithRules demoParityText [demoHedgeSuggestionRule, demoShortRule]).suggestions.map
        (fun m => (m.textStart, m.textEnd, m.rule.replacement)) = [(0, 17, none)] := by
  refine ⟨?_, by decide, by decide, by decide⟩
  intro text rules hnore
  have hsorted : ∀ r ∈ sortRulesByPatternLength rules, r.restructure = none :=
    fun r hr => hnore r ((sortRulesByPatternLength_perm rules).mem_iff.mp hr)
  have hinv := processRules_preserves_inv text (sortRulesByPatternLength rules) ⟨[], []⟩
    hsorted ⟨by simp, by simp, List.Pairwise.nil⟩
  have hperm := sortMatchesByTextStart_perm
    (processRules text (tokenize text) (getWordTokens (tokenize text))
      (sortRulesByPatternLength rules) ⟨[], []⟩).matchList
  show List.Pairwise (fun m m' => ¬ RangesIntersect m m')
    (sortMatchesByTextStart
      (processRules text (tokenize text) (getWordTokens (tokenize text))
        (sortRulesByPatternLength rules) ⟨[], []⟩).matchList)
  exact (hperm.pairwise_iff
    (fun h hint => h ⟨hint.2, hint.1⟩)).mpr hinv.2.2

/-- C10 witness: the general no-overlap statement applied to the
concrete suggestion-plus-replacement rule list. -/
theorem C10_suggestions_reserve_ranges_witness :
    List.Pairwise (fun m m' => ¬ RangesIntersect m m')
      (findMatches demoParityText [demoHedgeSuggestionRule, demoShortRule]) :=
  C10_suggestions_reserve_ranges.1 demoParityText [demoHedgeSuggestionRule, demoShortRule]
    (by decide)

/-- C10 counterexample: a suggestion-only rule with a restructuring
capture reserves only its pre-extension range, so a later rule can match
inside the accepted suggestion's extended span — the claim's universal
form fails. -/
theorem C10_counterexample :
    (findMatches demoOverlapText [demoSuggestionRestructureRule, demoSubjectRule]).map
        (fun m => (m.textStart, m.textEnd, m.rule.replacement)) =
      [(0, 19, none), (18, 19, some [str "x"])] ∧
    spansIntersect (0, 19) (18, 19) := by
  exact ⟨by decide, by decide, by decide⟩

/-! ## Claim C6 -/

theorem findMatches_two_rule_decomp (text : Str) :
    findMatches text [demoShortRule, demoLongRule] =
      sortMatchesByTextStart
        ((longDeltas text).map Prod.fst ++ (shortDeltas text).map Prod.fst) := by
  have h1 : scanRule text (tokenize text) (getWordTokens (tokenize text)) ⟨[], []⟩
      demoLongRule =
      ⟨[] ++ (longDeltas text).map Prod.fst, [] ++ (longDeltas text).map Prod.snd⟩ :=
    scanPositions_eq text (tokenize text) (getWordTokens (tokenize text))
      demoLongRule (List.range (getWordTokens (tokenize text)).length) [] []
  have h1' : scanRule text (tokenize text) (getWordTokens (tokenize text)) ⟨[], []⟩
      demoLongRule =
      ⟨(longDeltas text).map Prod.fst, (longDeltas text).map Prod.snd⟩ := by
    rw [h1]
    simp
  have h2 : scanRule text (tokenize text) (getWordTokens (tokenize text))
      ⟨(longDeltas text).map Prod.fst, (longDeltas text).map Prod.snd⟩ demoShortRule =
      ⟨(longDeltas text).map Prod.fst ++ (shortDeltas text).map Prod.fst,
       (longDeltas text).map Prod.snd ++ (shortDeltas text).map Prod.snd⟩ :=
    scanPositions_eq text (tokenize text) (getWordTokens (tokenize text))
      demoShortRule (List.range (getWordTokens (tokenize text)).length)
      ((longDeltas text).map Prod.fst) ((longDeltas text).map Prod.snd)
  show sortMatchesByTextStart
      (scanRule text (tokenize text) (getWordTokens (tokenize text))
        (scanRule text (tokenize text) (getWordTokens (tokenize text)) ⟨[], []⟩ demoLongRule)
        demoShortRule).matchList = _
  rw [h1', h2]

/-- C6: with the rules `"we should" → "we will"` and
`"I think we should" → "We should"` (the shorter pattern a trailing
subsequence of the longer, listed first), on any text whose word tokens
contain an occurrence of the longer phrase at word index `i`,
`findMatches` produces the longer rule's match over that occurrence,
and every match of the shorter rule lies entirely outside the
occurrence's four word tokens: rules are scanned in descending pattern
length, and the longer rule's accepted span blocks the shorter rule
there. -/
theorem C6_longest_pattern_precedence (text : Str) (i : Nat)
    (hseg : segAt (getWordTokens (tokenize text)) i
      [str "i", str "think", str "we", str "should"]) :
    (∃ m ∈ findMatches text [demoShortRule, demoLongRule],
        m.rule = demoLongRule ∧ m.tokenStart = i) ∧
    (∀ m ∈ findMatches text [demoShortRule, demoLongRule],
        m.rule = demoShortRule → m.tokenStart + 2 ≤ i ∨ i + 4 ≤ m.tokenStart) := by
  have hwsL : demoLongRule.pattern.map TokenPattern.text =
      [str "i", str "think", str "we", str "should"] := by decide
  have hlenL : (demoLongRule.pattern.map TokenPattern.text).length = 4 := by decide
  have hlenS : (demoShortRule.pattern.map TokenPattern.text).length = 2 := by decide
  have hsegL : segAtB (getWordTokens (tokenize text)) i
      (demoLongRule.pattern.map TokenPattern.text) = true := by
    rw [hwsL]
    exact hseg
  obtain ⟨tf0, htf0, -⟩ := segAtB_get (getWordTokens (tokenize text))
    (demoLongRule.pattern.map TokenPattern.text) i hsegL i (le_refl _)
    (by rw [hlenL]; omega)
  have hibound : i < (getWordTokens (tokenize text)).length :=
    (List.getElem?_eq_some.mp htf0).1
  obtain ⟨mL, rL, hmemL, hmLtok, hmLrule⟩ :=
    scanDeltas_accepts text demoLongRule (by decide) rfl
      (by rw [hwsL]; decide) (by decide) i hsegL
      (List.range (getWordTokens (tokenize text)).length) []
      (List.mem_range.mpr hibound) (fun u hu => absurd hu (List.not_mem_nil u))
  have hfm := findMatches_two_rule_decomp text
  refine ⟨⟨mL, ?_, hmLrule, hmLtok⟩, ?_⟩
  · rw [hfm, mem_sortMatchesByTextStart]
    exact List.mem_append_left _ (List.mem_map_of_mem Prod.fst hmemL)
  · intro m hm hrule
    rw [hfm, mem_sortMatchesByTextStart] at hm
    rcases List.mem_append.mp hm with hmL' | hmS
    · obtain ⟨mr, hmr, heq⟩ := List.mem_map.mp hmL'
      obtain ⟨m', r'⟩ := mr
      have hm'm : m' = m := heq
      obtain ⟨j, -, hatt⟩ := scanDeltas_provenance text (tokenize text)
        (getWordTokens (tokenize text)) demoLongRule
        (List.range (getWordTokens (tokenize text)).length) [] (m', r') hmr
      have hr := (attemptRuleAt_some_fields text (tokenize text)
        (getWordTokens (tokenize text)) demoLongRule j m' r' hatt).1
      have hcontra : demoLongRule = demoShortRule := by
        rw [← hr, hm'm]
        exact hrule
      have hlen4 : demoLongRule.pattern.length = 4 := by decide
      have hlen2 : demoShortRule.pattern.length = 2 := by decide
      have h42 : (4 : Nat) = 2 := by
        rw [← hlen4, ← hlen2, hcontra]
      exact absurd h42 (by decide)
    · obtain ⟨mr, hmr, heq⟩ := List.mem_map.mp hmS
      obtain ⟨m', r'⟩ := mr
      have hm'm : m' = m := heq
      rw [← hm'm] at hrule ⊢
      obtain ⟨j, -, hatt⟩ := scanDeltas_provenance text (tokenize text)
        (getWordTokens (tokenize text)) demoShortRule
        (List.range (getWordTokens (tokenize text)).length)
        ((longDeltas text).map Prod.snd) (m', r') hmr
      have htok := (attemptRuleAt_some_fields text (tokenize text)
        (getWordTokens (tokenize text)) demoShortRule j m' r' hatt).2.1
      obtain ⟨hsegS, -, tfS, tlS, htfS, htlS, hrsS, hreS⟩ :=
        attemptRuleAt_some_nonopt text (tokenize text) (getWordTokens (tokenize text))
          demoShortRule j m' r' (by decide) hatt
      obtain ⟨jL, -, hattL⟩ := scanDeltas_provenance text (tokenize text)
        (getWordTokens (tokenize text)) demoLongRule
        (List.range (getWordTokens (tokenize text)).length) [] (mL, rL) hmemL
      have htokL := (attemptRuleAt_some_fields text (tokenize text)
        (getWordTokens (tokenize text)) demoLongRule jL mL rL hattL).2.1
      have hjLi : jL = i := by
        rw [← htokL, hmLtok]
      rw [hjLi] at hattL
      obtain ⟨hsegL2, -, tfL, tlL, htfL, htlL, hrsL, hreL⟩ :=
        attemptRuleAt_some_nonopt text (tokenize text) (getWordTokens (tokenize text))
          demoLongRule i mL rL (by decide) hattL
      have hnoov := scanDeltas_accepted_no_overlap text (tokenize text)
        (getWordTokens (tokenize text)) demoShortRule
        (List.range (getWordTokens (tokenize text)).length)
        ((longDeltas text).map Prod.snd) m' r' hmr rL
        (List.mem_map_of_mem Prod.snd hmemL)
      by_contra hcon
      push_neg at hcon
      obtain ⟨hc1, hc2⟩ := hcon
      rw [htok] at hc1 hc2
      have hover := segs_rangesOverlap_true_of_common text
        (demoShortRule.pattern.map TokenPattern.text)
        (demoLongRule.pattern.map TokenPattern.text)
        j i (max i j) hsegS hsegL2
        (by omega) (by rw [hlenS]; omega)
        (by omega) (by rw [hlenL]; omega)
        tfS tlS tfL tlL htfS htlS htfL htlL
      rw [← hrsS, ← hreS] at hover
      have hrLeq : rL = (⟨tfL.start, tlL.stop⟩ : UsedRange) := by
        rw [← hrsL, ← hreL]
      rw [← hrLeq] at hover
      rw [hnoov] at hover
      exact Bool.false_ne_true hover

/-- C6 witness: the precedence statement at the concrete text
`"i think we should go"`, whose word tokens carry the longer phrase at
index 0. -/
theorem C6_longest_pattern_precedence_witness :
    (∃ m ∈ findMatches demoParityText [demoShortRule, demoLongRule],
        m.rule = demoLongRule ∧ m.tokenStart = 0) ∧
    (∀ m ∈ findMatches demoParityText [demoShortRule, demoLongRule],
        m.rule = demoShortRule → m.tokenStart + 2 ≤ 0 ∨ 0 + 4 ≤ m.tokenStart) :=
  C6_longest_pattern_precedence demoParityText 0
    (show segAtB (getWordTokens (tokenize demoParityText)) 0
        [str "i", str "think", str "we", str "should"] = true by decide)

/-! ## Claim C3 -/

/-- Recorded ranges of a vocabulary-disjoint rule's scan never block
another rule's attempts: the scan of `x` ignores them. -/
theorem scanDeltas_lockstep_disjoint (text : Str) (x w : TokenRule)
    (hoptx : ∀ p ∈ x.pattern, p.optional = false)
    (hoptw : ∀ p ∈ w.pattern, p.optional = false)
    (hdisj : ∀ s ∈ x.pattern.map TokenPattern.text, s ∉ w.pattern.map TokenPattern.text)
    (ps qs : List Nat) (U : List UsedRange) :
    scanDeltas text (tokenize text) (getWordTokens (tokenize text)) x ps
        (U ++ (scanDeltas text (tokenize text) (getWordTokens (tokenize text)) w qs U).map
          Prod.snd) =
      scanDeltas text (tokenize text) (getWordTokens (tokenize text)) x ps U := by
  apply scanDeltas_lockstep
  intro i hi m r ha e he
  obtain ⟨mr, hmem, heq⟩ := List.mem_map.mp he
  obtain ⟨mw, rW⟩ := mr
  have hrwe : rW = e := heq
  subst hrwe
  obtain ⟨j, -, hattw⟩ := scanDeltas_provenance text (tokenize text)
    (getWordTokens (tokenize text)) w qs U (mw, rW) hmem
  obtain ⟨hsegx, hnex, tf1, tl1, hf1, hl1, hrs1, hre1⟩ :=
    attemptRuleAt_some_nonopt text (tokenize text) (getWordTokens (tokenize text))
      x i m r hoptx ha
  obtain ⟨hsegw, hnew, tf2, tl2, hf2, hl2, hrs2, hre2⟩ :=
    attemptRuleAt_some_nonopt text (tokenize text) (getWordTokens (tokenize text))
      w j mw rW hoptw hattw
  have hov := segs_rangesOverlap_false text
    (x.pattern.map TokenPattern.text) (w.pattern.map TokenPattern.text) hdisj i j
    hsegx hsegw (by simp [hnex]) (by simp [hnew])
    tf1 tl1 tf2 tl2 hf1 hl1 hf2 hl2
  rw [← hrs1, ← hre1] at hov
  have hrw2 : rW = (⟨tf2.start, tl2.stop⟩ : UsedRange) := by
    rw [← hrs2, ← hre2]
  rw [hrw2]
  exact hov

theorem findMatches_mono_levels (text : Str) :
    (∀ m ∈ findMatches text (getApplicableTokenRules .conservative),
        m ∈ findMatches text (getApplicableTokenRules .moderate)) ∧
    (∀ m ∈ findMatches text (getApplicableTokenRules .moderate),
        m ∈ findMatches text (getApplicableTokenRules .aggressive)) := by
  obtain ⟨M0, U0, hst0⟩ : ∃ M U,
      scanRule text (tokenize text) (getWordTokens (tokenize text))
        (scanRule text (tokenize text) (getWordTokens (tokenize text)) ⟨[], []⟩ iThinkRule)
        sorryToBotherRule = ⟨M, U⟩ :=
    ⟨_, _, rfl⟩
  have hcons : findMatches text (getApplicableTokenRules .conservative) =
      sortMatchesByTextStart
        (scanRule text (tokenize text) (getWordTokens (tokenize text)) ⟨M0, U0⟩
          iJustWantedRule).matchList := by
    rw [← hst0]
    rfl
  have hmod : findMatches text (getApplicableTokenRules .moderate) =
      sortMatchesByTextStart
        (scanRule text (tokenize text) (getWordTokens (tokenize text))
          (scanRule text (tokenize text) (getWordTokens (tokenize text)) ⟨M0, U0⟩
            wouldYouMindRule)
          iJustWantedRule).matchList := by
    rw [← hst0]
    rfl
  have hagg : findMatches text (getApplicableTokenRules .aggressive) =
      sortMatchesByTextStart
        (scanRule text (tokenize text) (getWordTokens (tokenize text))
          (scanRule text (tokenize text) (getWordTokens (tokenize text))
            (scanRule text (tokenize text) (getWordTokens (tokenize text)) ⟨M0, U0⟩
              wouldYouMindRule)
            iJustWantedRule)
          inMyOpinionRule).matchList := by
    rw [← hst0]
    rfl
  have hJ : scanRule text (tokenize text) (getWordTokens (tokenize text)) ⟨M0, U0⟩
      iJustWantedRule =
      ⟨M0 ++ (scanDeltas text (tokenize text) (getWordTokens (tokenize text)) iJustWantedRule
          (List.range (getWordTokens (tokenize text)).length) U0).map Prod.fst,
       U0 ++ (scanDeltas text (tokenize text) (getWordTokens (tokenize text)) iJustWantedRule
          (List.range (getWordTokens (tokenize text)).length) U0).map Prod.snd⟩ :=
    scanPositions_eq text (tokenize text) (getWordTokens (tokenize text)) iJustWantedRule
      (List.range (getWordTokens (tokenize text)).length) M0 U0
  have hW : scanRule text (tokenize text) (getWordTokens (tokenize text)) ⟨M0, U0⟩
      wouldYouMindRule =
      ⟨M0 ++ (scanDeltas text (tokenize text) (getWordTokens (tokenize text)) wouldYouMindRule
          (List.range (getWordTokens (tokenize text)).length) U0).map Prod.fst,
       U0 ++ (scanDeltas text (tokenize text) (getWordTokens (tokenize text)) wouldYouMindRule
          (List.range (getWordTokens (tokenize text)).length) U0).map Prod.snd⟩ :=
    scanPositions_eq text (tokenize text) (getWordTokens (tokenize text)) wouldYouMindRule
      (List.range (getWordTokens (tokenize text)).length) M0 U0
  have hJ2 : scanRule text (tokenize text) (getWordTokens (tokenize text))
      ⟨M0 ++ (scanDeltas text (tokenize text) (getWordTokens (tokenize text)) wouldYouMindRule
          (List.range (getWordTokens (tokenize text)).length) U0).map Prod.fst,
       U0 ++ (scanDeltas text (tokenize text) (getWordTokens (tokenize text)) wouldYouMindRule
          (List.range (getWordTokens (tokenize text)).length) U0).map Prod.snd⟩
      iJustWantedRule =
      ⟨(M0 ++ (scanDeltas text (tokenize text) (getWordTokens (tokenize text)) wouldYouMindRule
          (List.range (getWordTokens (tokenize text)).length) U0).map Prod.fst) ++
        (scanDeltas text (tokenize text) (getWordTokens (tokenize text)) iJustWantedRule
          (List.range (getWordTokens (tokenize text)).length)
          (U0 ++ (scanDeltas text (tokenize text) (getWordTokens (tokenize text))
            wouldYouMindRule
            (List.range (getWordTokens (tokenize text)).length) U0).map Prod.snd)).map Prod.fst,
       (U0 ++ (scanDeltas text (tokenize text) (getWordTokens (tokenize text)) wouldYouMindRule
          (List.range (getWordTokens (tokenize text)).length) U0).map Prod.snd) ++
        (scanDeltas text (tokenize text) (getWordTokens (tokenize text)) iJustWantedRule
          (List.range (getWordTokens (tokenize text)).length)
          (U0 ++ (scanDeltas text (tokenize text) (getWordTokens (tokenize text))
            wouldYouMindRule
            (List.range (getWordTokens (tokenize text)).length) U0).map Prod.snd)).map
          Prod.snd⟩ :=
    scanPositions_eq text (tokenize text) (getWordTokens (tokenize text)) iJustWantedRule
      (List.range (getWordTokens (tokenize text)).length) _ _
  have hlock : scanDeltas text (tokenize text) (getWordTokens (tokenize text)) iJustWantedRule
      (List.range (getWordTokens (tokenize text)).length)
      (U0 ++ (scanDeltas text (tokenize text) (getWordTokens (tokenize text)) wouldYouMindRule
        (List.range (getWordTokens (tokenize text)).length) U0).map Prod.snd) =
      scanDeltas text (tokenize text) (getWordTokens (tokenize text)) iJustWantedRule
        (List.range (getWordTokens (tokenize text)).length) U0 :=
    scanDeltas_lockstep_disjoint text iJustWantedRule wouldYouMindRule (by decide) (by decide)
      (by decide) (List.range (getWordTokens (tokenize text)).length)
      (List.range (getWordTokens (tokenize text)).length) U0
  constructor
  · intro m hm
    rw [hcons, mem_sortMatchesByTextStart, hJ] at hm
    rw [hmod, mem_sortMatchesByTextStart, hW, hJ2, hlock]
    rcases List.mem_append.mp hm with h1 | h2
    · exact List.mem_append_left _ (List.mem_append_left _ h1)
    · exact List.mem_append_right _ h2
  · intro m hm
    rw [hmod, mem_sortMatchesByTextStart] at hm
    rw [hagg, mem_sortMatchesByTextStart]
    obtain ⟨dm, du, hs⟩ := scanRule_append text (tokenize text) (getWordTokens (tokenize text))
      (scanRule text (tokenize text) (getWordTokens (tokenize text))
        (scanRule text (tokenize text) (getWordTokens (tokenize text)) ⟨M0, U0⟩
          wouldYouMindRule)
        iJustWantedRule)
      inMyOpinionRule
    rw [hs]
    exact List.mem_append_left _ hm

/-- C3: with the modelled rule database (spec §8), the match sets of
`processText` grow monotonically with the strictness level: every
replacement or suggestion produced at `conservative` is also produced at
`moderate` and at `aggressive`, and every one produced at `moderate` is
also produced at `aggressive`.  The moderate rule's vocabulary
(`would you mind if`) is disjoint from the conservative rules it is
sorted among, so its recorded ranges never block their matches, and the
aggressive rule is scanned last. -/
theorem C3_levels_monotone (text : Str) :
    (∀ x ∈ (processText text .conservative).replacements,
        x ∈ (processText text .moderate).replacements ∧
        x ∈ (processText text .aggressive).replacements) ∧
    (∀ x ∈ (processText text .conservative).suggestions,
        x ∈ (processText text .moderate).suggestions ∧
        x ∈ (processText text .aggressive).suggestions) ∧
    (∀ x ∈ (processText text .moderate).replacements,
        x ∈ (processText text .aggressive).replacements) ∧
    (∀ x ∈ (processText text .moderate).suggestions,
        x ∈ (processText text .aggressive).suggestions) := by
  obtain ⟨hcm, hma⟩ := findMatches_mono_levels text
  have hca : ∀ m ∈ findMatches text (getApplicableTokenRules .conservative),
      m ∈ findMatches text (getApplicableTokenRules .aggressive) :=
    fun m hm => hma m (hcm m hm)
  have hrep : ∀ lvl : StrictnessLevel, (processText text lvl).replacements =
      ((findMatches text (getApplicableTokenRules lvl)).filter
        (fun m => m.rule.replacement ≠ none)).map ruleMatchToMatch := fun lvl => rfl
  have hsug : ∀ lvl : StrictnessLevel, (processText text lvl).suggestions =
      ((findMatches text (getApplicableTokenRules lvl)).filter
        (fun m => m.rule.replacement = none)).map ruleMatchToMatch := fun lvl => rfl
  have key : ∀ (p : RuleMatch → Bool) (l1 l2 : List RuleMatch),
      (∀ m ∈ l1, m ∈ l2) →
      ∀ x ∈ (l1.filter p).map ruleMatchToMatch, x ∈ (l2.filter p).map ruleMatchToMatch := by
    intro p l1 l2 hsub x hx
    obtain ⟨m, hmf, hxm⟩ := List.mem_map.mp hx
    obtain ⟨hm, hp⟩ := List.mem_filter.mp hmf
    exact hxm ▸ List.mem_map_of_mem _ (List.mem_filter.mpr ⟨hsub m hm, hp⟩)
  refine ⟨?_, ?_, ?_, ?_⟩
  · intro x hx
    rw [hrep .conservative] at hx
    refine ⟨?_, ?_⟩
    · rw [hrep .moderate]
      exact key _ _ _ hcm x hx
    · rw [hrep .aggressive]
      exact key _ _ _ hca x hx
  · intro x hx
    rw [hsug .conservative] at hx
    refine ⟨?_, ?_⟩
    · rw [hsug .moderate]
      exact key _ _ _ hcm x hx
    · rw [hsug .aggressive]
      exact key _ _ _ hca x hx
  · intro x hx
    rw [hrep .moderate] at hx
    rw [hrep .aggressive]
    exact key _ _ _ hma x hx
  · intro x hx
    rw [hsug .moderate] at hx
    rw [hsug .aggressive]
    exact key _ _ _ hma x hx

/-- C3 witness: the conservative replacement produced on
`"i think we should go"` is also produced at the moderate and aggressive
levels. -/
theorem C3_levels_monotone_witness :
    (processText demoParityText .conservative).replacements.getD 0
        ⟨[], none, 0, 0, ⟨[], none, .conservative, [], none⟩⟩ ∈
      (processText demoParityText .moderate).replacements ∧
    (processText demoParityText .conservative).replacements.getD 0
        ⟨[], none, 0, 0, ⟨[], none, .conservative, [], none⟩⟩ ∈
      (processText demoParityText .aggressive).replacements :=
  (C3_levels_monotone demoParityText).1 _ (by decide)

end SpeakStrong
